import Mathlib

/-!
Verification of the `release-me` repository's version model, change-log
document model and reconciliation/backfill scan.

Shallow embedding conventions:
- Go strings are modelled as `List Char` (Go compares strings by UTF-8 byte
  order, which coincides with code-point order, so `Char` order is faithful).
- Go `int` fields holding parsed version numbers are modelled as `Nat`
  (`strconv.Atoi` results are non-negative for `\d+` input; overflow of the
  64-bit range is modelled explicitly in `atoiQ`).
- The regular expressions `versionRE`, `styleRE` (semver.go) and
  `changesVersionRE` (changes.go) are embedded as executable matchers that
  reproduce Go's leftmost-first (backtracking-preference) semantics; see the
  comments on `matchTail`, `matchVersionRE` and `matchHeading`.
-/

/-- Character class of Go's regexp `\d` (ASCII digits). -/
def isDigitC (c : Char) : Bool := '0' ≤ c && c ≤ '9'

/-- Character class of Go's regexp `\w` = `[0-9A-Za-z_]` (ASCII only). -/
def isWordC (c : Char) : Bool :=
  ('0' ≤ c && c ≤ '9') || ('a' ≤ c && c ≤ 'z') || ('A' ≤ c && c ≤ 'Z') || c = '_'

/-- Go `unicode.IsSpace` restricted to the Latin-1 range (the change-log
lines the claims are about are ASCII; `\n` never occurs inside a line). -/
def isSpaceC (c : Char) : Bool :=
  c = ' ' || c = '\t' || c = '\n' || c = '\u000B' || c = '\u000C' || c = '\r' ||
  c = '\u0085' || c = '\u00A0'

/-- A line is blank when `strings.TrimSpace` maps it to `""`. -/
def isBlankLine (l : List Char) : Bool := l.all isSpaceC

/-- Numeric value of a decimal digit character. -/
def digitVal (c : Char) : Nat := c.toNat - '0'.toNat

/-- Value of a decimal digit string, most significant digit first
(the semantics of `strconv.Atoi` on an all-digit string, ignoring range). -/
def digitsVal (ds : List Char) : Nat := ds.foldl (fun n c => n * 10 + digitVal c) 0

/-- The decimal digit character for `d < 10`. -/
def digitChar (d : Nat) : Char := Char.ofNat ('0'.toNat + d)

/-- Fuel-indexed helper for `natDigits`; the fuel only serves to make the
recursion structural (hence kernel-reducible), and is irrelevant once it is
at least `n` (`natDigitsAux_irrel`). -/
def natDigitsAux : Nat → Nat → List Char
  | 0, n => [digitChar n]
  | fuel + 1, n =>
    if n < 10 then [digitChar n]
    else natDigitsAux fuel (n / 10) ++ [digitChar (n % 10)]

/-- Canonical decimal numeral of a natural number (no leading zeros),
as produced by Go's `fmt.Sprintf("%d", n)` for non-negative `n`. -/
def natDigits (n : Nat) : List Char := natDigitsAux n n

/-- Go string `<`: lexicographic byte order (= code-point order here). -/
def strLt : List Char → List Char → Bool
  | [], [] => false
  | [], _ :: _ => true
  | _ :: _, [] => false
  | a :: as, b :: bs => if a < b then true else if b < a then false else strLt as bs

/-- `semver.Version` (semver.go): major, minor, patch plus optional flavor. -/
structure Version where
  major : Nat
  minor : Nat
  patch : Nat
  flavor : List Char
deriving DecidableEq, Repr

/-- `semver.Style` (semver.go): literal prefix plus whether the patch digit
is elided. (`Prefix` is a Lean keyword, hence the field name `pfx`.) -/
structure Style where
  pfx : List Char
  omitPatch : Bool
deriving DecidableEq, Repr

/-- `semver.Compare` (semver.go lines 135-165), transcribed case by case.
Returns -1, 0 or 1. -/
def Compare (a b : Version) (compareFlavor : Bool) : Int :=
  if a.major < b.major then -1
  else if a.major > b.major then 1
  else if a.minor < b.minor then -1
  else if a.minor > b.minor then 1
  else if a.patch < b.patch then -1
  else if a.patch > b.patch then 1
  else if compareFlavor then
    if a.flavor = [] && b.flavor ≠ [] then -1
    else if a.flavor ≠ [] && b.flavor = [] then 1
    else if strLt a.flavor b.flavor then -1
    else if strLt b.flavor a.flavor then 1
    else 0
  else 0

/-- `Version.GreaterThan` (semver.go): `Compare(v, o, compareFlavor) > 0`. -/
def Version.GreaterThan (v o : Version) (compareFlavor : Bool) : Bool :=
  Compare v o compareFlavor > 0

/-- `Version.GreaterEqualTo` (semver.go). -/
def Version.GreaterEqualTo (v o : Version) (compareFlavor : Bool) : Bool :=
  Compare v o compareFlavor ≥ 0

/-- `math.MaxInt64`: the largest value `strconv.Atoi` accepts on a 64-bit
platform. -/
def INT64MAX : Nat := 9223372036854775807

/-- `strconv.Atoi` on an all-digit string: its numeric value, or an error
(`none`) when the value exceeds the 64-bit signed range. -/
def atoiQ (ds : List Char) : Option Nat :=
  if digitsVal ds ≤ INT64MAX then some (digitsVal ds) else none

/-- `Style.Format` (semver.go lines 48-57): prefix, major "." minor,
"." patch unless (omitPatch and patch == 0), "-" flavor if non-empty. -/
def Style.Format (s : Style) (v : Version) : List Char :=
  s.pfx ++ natDigits v.major ++ '.' :: natDigits v.minor ++
  (if v.patch ≠ 0 || !s.omitPatch then '.' :: natDigits v.patch else []) ++
  (if v.flavor ≠ [] then '-' :: v.flavor else [])

/-- `Version.String` (semver.go lines 79-85). -/
def Version.String (v : Version) : List Char :=
  natDigits v.major ++ '.' :: natDigits v.minor ++ '.' :: natDigits v.patch ++
  (if v.flavor ≠ [] then '-' :: v.flavor else [])

/-- The components captured by `versionRE`/`styleRE`:
prefix (capture 1 of `styleRE`), major digits, minor digits, optional patch
digits, optional flavor (without the leading `-`, as `Parse` strips it). -/
structure VMatch where
  pfx : List Char
  majD : List Char
  minD : List Char
  patchD : Option (List Char)
  flavorD : Option (List Char)
deriving DecidableEq, Repr

/-- Matcher for the end-anchored tail `(\d+)\.(\d+)(?:\.(\d+))?(-\w+)?$` of
`versionRE`/`styleRE`.  Anchored at both ends this tail is deterministic:
`\d+` must take a maximal digit run (a shorter run would leave a digit where
`\.`, `-` or the end is required), the optional patch group matches exactly
when a `.` followed by a digit run ending the number part is present, and the
flavor group must consume the entire remainder. -/
def matchTail (l : List Char) : Option (List Char × List Char × Option (List Char) × Option (List Char)) :=
  let majD := l.takeWhile isDigitC
  let r1 := l.dropWhile isDigitC
  if majD = [] then none else
  if r1.head? = some '.' then
    let r2 := r1.tail
    let minD := r2.takeWhile isDigitC
    let r3 := r2.dropWhile isDigitC
    if minD = [] then none else
    if r3 = [] then some (majD, minD, none, none)
    else if r3.head? = some '.' then
      let r4 := r3.tail
      let patchD := r4.takeWhile isDigitC
      let r5 := r4.dropWhile isDigitC
      if patchD = [] then none
      else if r5 = [] then some (majD, minD, some patchD, none)
      else if r5.head? = some '-' then
        (if r5.tail ≠ [] && r5.tail.all isWordC then
          some (majD, minD, some patchD, some r5.tail) else none)
      else none
    else if r3.head? = some '-' then
      (if r3.tail ≠ [] && r3.tail.all isWordC then
        some (majD, minD, none, some r3.tail) else none)
    else none
  else none

/-- Full-string matcher for `styleRE = ^(\w*-|v)?(\d+)\.(\d+)(?:\.(\d+))?(-\w+)?$`
(`versionRE` differs only in not capturing the prefix).  Go's regexp uses
leftmost-first semantics, so the prefix alternatives are tried in order:
`\w*-` (the maximal leading word run followed by `-`; no shorter run can work
because `-` is not a word character), then the literal `v`, then no prefix. -/
def matchVersionRE (l : List Char) : Option VMatch :=
  let w := l.takeWhile isWordC
  let optA : Option VMatch :=
    if (l.dropWhile isWordC).head? = some '-' then
      (matchTail (l.dropWhile isWordC).tail).map fun (ma, mi, pa, fl) =>
        ⟨w ++ ['-'], ma, mi, pa, fl⟩
    else none
  match optA with
  | some m => some m
  | none =>
    let optB : Option VMatch :=
      if l.head? = some 'v' then
        (matchTail l.tail).map fun (ma, mi, pa, fl) => ⟨['v'], ma, mi, pa, fl⟩
      else none
    match optB with
    | some m => some m
    | none => (matchTail l).map fun (ma, mi, pa, fl) => ⟨[], ma, mi, pa, fl⟩

/-- `semver.ParseStyle` (semver.go lines 36-45): `Prefix` is capture 1,
`OmitPatch` is true exactly when the patch group is absent.  (`ParseStyle`
never inspects the numeric values, so it has no range failure.) -/
def ParseStyle (l : List Char) : Option Style :=
  (matchVersionRE l).map fun m => ⟨m.pfx, m.patchD = none⟩

/-- `semver.Parse` (semver.go lines 88-113): match `versionRE`, convert the
captured digit runs with `strconv.Atoi` (failing on 64-bit overflow), default
the patch to 0, strip the `-` from the flavor. -/
def Parse (l : List Char) : Option Version := do
  let m ← matchVersionRE l
  let maj ← atoiQ m.majD
  let min ← atoiQ m.minD
  let patch ← match m.patchD with
    | none => pure 0
    | some d => atoiQ d
  pure ⟨maj, min, patch, m.flavorD.getD []⟩

/-- Insertion step of the model of Go's `sort.Slice` in `List.Sort`
(semver.go line 180): descending by flavor-aware `Compare`. -/
def insertDesc (v : Version) : List Version → List Version
  | [] => [v]
  | w :: ws => if v.GreaterThan w true then v :: w :: ws else w :: insertDesc v ws

/-- Model of `List.Sort` (semver.go lines 179-181): sorts most recent first.
Go's `sort.Slice` is unstable, so any permutation consistent with the order
is a faithful model; insertion sort is the deterministic choice here. -/
def sortDesc : List Version → List Version
  | [] => []
  | v :: vs => insertDesc v (sortDesc vs)

/-- Model of Go's `semver.Set` (a `map[Version]struct{}`): a duplicate-free
list of versions.  Only membership is observable in a Go map; list order
models one enumeration order. -/
abbrev VSet := List Version

/-- Element insertion of `Set.Add` (semver.go line 193): adding a present key
to a map is a no-op. -/
def setAdd (s : VSet) (v : Version) : VSet := if v ∈ s then s else s ++ [v]

/-- Transcription of `Set.Union` (semver.go lines 202-210): iterates `o` and
keeps the versions also contained in `s` (despite its name this computes the
intersection, as its own doc comment says). -/
def VSet.Union (s o : VSet) : VSet :=
  o.foldl (fun out v => if v ∈ s then setAdd out v else out) []

/-- Transcription of `Set.List` (semver.go lines 222-229): the set's
elements, sorted most recent first. -/
def VSet.List (s : VSet) : List Version := sortDesc s

/-- Splits a text into lines at every newline, the semantics of Go's
`strings.Split(body, "\n")`: the result is always non-empty and never drops
or merges separators. -/
def splitLines : List Char → List (List Char)
  | [] => [[]]
  | c :: rest =>
    if c = '\n' then [] :: splitLines rest
    else
      match splitLines rest with
      | [] => [[c]]
      | h :: t => (c :: h) :: t

/-- Joins lines with newlines, the semantics of `strings.Join(lines, "\n")`. -/
def joinLines : List (List Char) → List Char
  | [] => []
  | [l] => l
  | l :: ls => l ++ '\n' :: joinLines ls

/-- All ways a greedy `X+` group can split a maximal run, longest first, in
the order Go's leftmost-first backtracking explores them.  `run` is the
maximal run, `rest` what follows it; each candidate is (matched, remainder)
with a non-empty matched part. -/
def splitsDesc (run rest : List Char) : List (List Char × List Char) :=
  (List.range run.length).map fun i =>
    (run.take (run.length - i), run.drop (run.length - i) ++ rest)

/-- Candidates for the optional patch group `(?:\.(\d+))?` inside
`changesVersionRE`, in backtracking-preference order: match (greedy digit
splits) first, then skip. -/
def patchOptions (l : List Char) : List (List Char × List Char) :=
  (if l.head? = some '.' then
     (splitsDesc (l.tail.takeWhile isDigitC) (l.tail.dropWhile isDigitC)).map
       fun pr => ('.' :: pr.1, pr.2)
   else []) ++ [([], l)]

/-- Candidates for the optional flavor group `(?:-\w+)?` inside
`changesVersionRE`, in backtracking-preference order. -/
def flavorOptions (l : List Char) : List (List Char × List Char) :=
  (if l.head? = some '-' then
     (splitsDesc (l.tail.takeWhile isWordC) (l.tail.dropWhile isWordC)).map
       fun pr => ('-' :: pr.1, pr.2)
   else []) ++ [([], l)]

/-- Candidates for `\d+\.\d+(?:\.\d+)?(?:-\w+)?` with an arbitrary
continuation (the version token of `changesVersionRE`), as (token, remainder)
pairs in backtracking-preference order.  Unlike the `$`-anchored `versionRE`,
inside a heading the continuation (separator/date) can claim trailing digit
or word characters, so the minor/patch/flavor splits must all be enumerated;
the major run is still forced because a literal `\.` follows it. -/
def tokenTailCandidates (l : List Char) : List (List Char × List Char) :=
  let majD := l.takeWhile isDigitC
  let r1 := l.dropWhile isDigitC
  if majD = [] then [] else
  if r1.head? = some '.' then
    (splitsDesc (r1.tail.takeWhile isDigitC) (r1.tail.dropWhile isDigitC)).flatMap fun mi =>
      (patchOptions mi.2).flatMap fun pa =>
        (flavorOptions pa.2).map fun fl =>
          (majD ++ '.' :: mi.1 ++ pa.1 ++ fl.1, fl.2)
  else []

/-- Candidates for the prefix alternation `(?:\w*-|v)?` of the version token,
in backtracking-preference order (see `matchVersionRE` for why each
alternative is deterministic on its own). -/
def prefixOptions (l : List Char) : List (List Char × List Char) :=
  (if (l.dropWhile isWordC).head? = some '-' then
    [(l.takeWhile isWordC ++ ['-'], (l.dropWhile isWordC).tail)]
   else []) ++
  (if l.head? = some 'v' then [(['v'], l.tail)] else []) ++
  [([], l)]

/-- Candidates for the whole version token `((?:\w*-|v)?\d+\.\d+(?:\.\d+)?(?:-\w+)?)`
of `changesVersionRE`, in backtracking-preference order. -/
def tokenCandidates (l : List Char) : List (List Char × List Char) :=
  (prefixOptions l).flatMap fun pr =>
    (tokenTailCandidates pr.2).map fun t => (pr.1 ++ t.1, t.2)

/-- Matches `\d\d\d\d-\d\d-\d\d` at the front of `l`. -/
def matchDate (l : List Char) : Option (List Char × List Char) :=
  match l with
  | y1 :: y2 :: y3 :: y4 :: '-' :: m1 :: m2 :: '-' :: d1 :: d2 :: rest =>
    if [y1, y2, y3, y4, m1, m2, d1, d2].all isDigitC then
      some ([y1, y2, y3, y4, '-', m1, m2, '-', d1, d2], rest)
    else none
  | _ => none

/-- Matcher for `changesVersionRE =
`^(#* *)((?:\w*-|v)?\d+\.\d+(?:\.\d+)?(?:-\w+)?)( *)(\d\d\d\d-\d\d-\d\d)? *$``
(changes.go line 52), returning the four captures (m1..m4; m4 is `""` when
the date is absent, as in Go).  The leading `#*` and ` *` runs are forced
(neither `#` nor a space can start the version token); the token candidates
are tried in backtracking order; after the token, the separator space run is
forced (a date starts with a digit), the greedy optional date is tried before
being skipped, and the remainder must be all spaces. -/
def matchHeading (l : List Char) : Option (List Char × List Char × List Char × List Char) :=
  let hashes := l.takeWhile (fun c => c = '#')
  let r1 := l.dropWhile (fun c => c = '#')
  let sp := r1.takeWhile (fun c => c = ' ')
  let r2 := r1.dropWhile (fun c => c = ' ')
  (tokenCandidates r2).findSome? fun tc =>
    let sep := tc.2.takeWhile (fun c => c = ' ')
    let r3 := tc.2.dropWhile (fun c => c = ' ')
    match matchDate r3 with
    | some dr =>
      if dr.2.all (fun c => c = ' ') then some (hashes ++ sp, tc.1, sep, dr.1) else none
    | none =>
      if r3.all (fun c => c = ' ') then some (hashes ++ sp, tc.1, sep, ([] : List Char)) else none

/-- The `version` record type of changes.go (lines 41-48): parsed version
plus its 1-based line number, the heading marker/indent (m1, Go field
`prefix`), the style of the token, the separator (m3) and the date (m4). -/
structure VersionEntry where
  version : Version
  line : Nat
  pfx : List Char
  style : Style
  sep : List Char
  date : List Char
deriving DecidableEq, Repr

/-- The `changes.Content` type (changes.go lines 36-39). -/
structure Content where
  versions : List VersionEntry
  lines : List (List Char)
deriving DecidableEq, Repr

/-- The loop body of `Content.parse` (changes.go lines 90-111), with `i` the
number of lines already consumed: each line matching `changesVersionRE`
yields an entry (line numbers are 1-based); a `semver.Parse` failure aborts
the whole parse. -/
def parseFrom : Nat → List (List Char) → Option (List VersionEntry)
  | _, [] => some []
  | i, ln :: rest =>
    match matchHeading ln with
    | none => parseFrom (i + 1) rest
    | some (m1, m2, m3, m4) =>
      match Parse m2 with
      | none => none
      | some v =>
        (parseFrom (i + 1) rest).map fun es =>
          ⟨v, i + 1, m1, (ParseStyle m2).getD ⟨[], false⟩, m3, m4⟩ :: es

/-- `changes.Read` (changes.go lines 82-88): split the body into lines,
derive the version entries. -/
def Read (body : List Char) : Option Content :=
  (parseFrom 0 (splitLines body)).map fun es => ⟨es, splitLines body⟩

/-- `Content.String` (changes.go lines 113-115). -/
def Content.String (c : Content) : List Char := joinLines c.lines

/-- `Content.Versions` (changes.go lines 156-163): the versions in entry
order, then sorted most recent first. -/
def Content.Versions (c : Content) : List Version :=
  sortDesc (c.versions.map fun e => e.version)

/-- `Content.CurrentVersion` (changes.go lines 166-171). -/
def Content.CurrentVersion (c : Content) : Version :=
  match c.versions with
  | [] => ⟨0, 0, 0, []⟩
  | e :: _ => e.version

/-- The first loop of `Content.ReleaseNotes` (changes.go lines 119-129):
the 1-based heading line of the first entry matching `v`, and the following
entry's line minus one (the Go sentinel `-1`, meaning none, is modelled by
`Option`). -/
def rnRange : List VersionEntry → Version → Option (Nat × Option Nat)
  | [], _ => none
  | e :: rest, v =>
    if e.version = v then
      some (e.line, (rest.head?).map fun e2 => e2.line - 1)
    else rnRange rest v

/-- Walks the suffix of the document the index cursor points at: advances the
cursor over blank lines, stopping at the first non-blank line or the document
end. -/
def skipGo : List (List Char) → Nat → Nat
  | [], i => i
  | l :: rest, i => if isBlankLine l then skipGo rest (i + 1) else i

/-- The loop `for startLine < len(lines) && TrimSpace(lines[startLine]) == ""`
of `Content.ReleaseNotes` (changes.go lines 133-135): the loop's condition
`startLine < len(lines)` is the suffix being non-empty, and `lines[startLine]`
is its head. -/
def skipBlanksFrom (lines : List (List Char)) (i : Nat) : Nat :=
  skipGo (lines.drop i) i

/-- Counter-indexed body of the `endLine` loop: each iteration decrements the
end cursor, so the counter (the initial `e - s`) makes the recursion
structural while `e > s` stays equivalent to the counter being positive. -/
def shrinkGo : Nat → List (List Char) → Nat → Nat
  | 0, _, e => e
  | k + 1, lines, e =>
    if isBlankLine (lines.getD (e - 1) []) then shrinkGo k lines (e - 1) else e

/-- The loop `for endLine > startLine && TrimSpace(lines[endLine-1]) == ""`
of `Content.ReleaseNotes` (changes.go lines 139-141).  Go indexes
`lines[endLine-1]` without a bounds check (callers guarantee
`endLine ≤ len(lines)`); out-of-range access is modelled by `getD`. -/
def shrinkEnd (lines : List (List Char)) (s e : Nat) : Nat :=
  shrinkGo (e - s) lines e

/-- `Content.ReleaseNotes` (changes.go lines 118-143): the lines strictly
between the heading of `v` and the next heading (or document end), leading
and trailing blank lines trimmed; `none` models the `false` result. -/
def Content.ReleaseNotes (c : Content) (v : Version) : Option (List Char) :=
  match rnRange c.versions v with
  | none => none
  | some (startLine, endOpt) =>
    let endLine := match endOpt with
      | none => c.lines.length
      | some e => e
    let s := skipBlanksFrom c.lines startLine
    let e := shrinkEnd c.lines s endLine
    some (joinLines ((c.lines.drop s).take (e - s)))

/-- `Content.CurrentVersionNotes` (changes.go lines 174-188), a verbatim
transcription including its index arithmetic: `from`/`to` start 1-based and
are both decremented before slicing. -/
def Content.CurrentVersionNotes (c : Content) : List Char :=
  match c.versions with
  | [] => []
  | e0 :: rest =>
    let fromL := e0.line + 1
    let toL := match rest with
      | [] => c.lines.length
      | e1 :: _ => e1.line
    if fromL < toL then
      joinLines ((c.lines.drop (fromL - 1)).take ((toL - 1) - (fromL - 1)))
    else []

/-- The findings `Content.Validate` can report (changes.go lines 243-270),
carrying exactly the data the formatted error messages carry. -/
inductive Finding where
  | noVersions : Finding
  | topNotFlavored : Version → Nat → Finding
  | illegallyFlavored : Version → Nat → Finding
  | nonMonotonic : Version → Nat → Version → Nat → Finding
deriving DecidableEq, Repr

/-- The two checks of one iteration of the `Validate` pair loop
(changes.go lines 257-267): `next` is the earlier-in-document entry,
`curr` the later one. -/
def pairFindings (next curr : VersionEntry) : List Finding :=
  (if curr.version.flavor ≠ [] then [Finding.illegallyFlavored curr.version curr.line] else []) ++
  (if !next.version.GreaterThan curr.version false then
     [Finding.nonMonotonic next.version next.line curr.version curr.line]
   else [])

/-- The pair loop `for i, curr := range c.versions[1:]` of `Validate`. -/
def validatePairs : List VersionEntry → List Finding
  | a :: b :: rest => pairFindings a b ++ validatePairs (b :: rest)
  | _ => []

/-- `Content.Validate` (changes.go lines 243-270). -/
def Content.Validate (c : Content) (isDevelopmentBranch : Bool) : List Finding :=
  match c.versions with
  | [] => [Finding.noVersions]
  | e0 :: rest =>
    (if isDevelopmentBranch && e0.version.flavor = [] then
       [Finding.topNotFlavored e0.version e0.line]
     else []) ++
    validatePairs (e0 :: rest)

/-- One tally update of `determineVersionStyle`:
`prefixUses[s.Prefix] = prefixUses[s.Prefix] + 1`, an association list
modelling the Go map (insertion order models one enumeration order). -/
def bumpPrefix : List (List Char × Nat) → List Char → List (List Char × Nat)
  | [], p => [(p, 1)]
  | (q, n) :: rest, p =>
    if q = p then (q, n + 1) :: rest else (q, n) :: bumpPrefix rest p

/-- The tally loops of `repo.determineVersionStyle` (main.go lines 1017-1037)
over one combined enumeration of branch, tag and release names. -/
def tallyPrefixes (names : List (List Char)) : List (List Char × Nat) :=
  names.foldl
    (fun t n => match ParseStyle n with
      | some s => bumpPrefix t s.pfx
      | none => t)
    []

/-- The `usesPatch` accumulation of `repo.determineVersionStyle`
(main.go): starts `true`, and each parsed name updates it to
`!s.OmitPatch && usesPatch`. -/
def usesPatchAll (names : List (List Char)) : Bool :=
  names.foldl
    (fun acc n => match ParseStyle n with
      | some s => !s.omitPatch && acc
      | none => acc)
    true

/-- The selection loop of `repo.determineVersionStyle` (main.go lines
1038-1045): starts from the default `"release-"` with 0 uses and replaces the
champion whenever `c >= mostCommonPrefixUses`.  Go iterates the map in
unspecified order; the association list's insertion order models one such
order (the claims checked here do not depend on it). -/
def selectPrefix (t : List (List Char × Nat)) : List Char :=
  (t.foldl (fun best pc => if pc.2 ≥ best.2 then pc else best)
    ("release-".toList, 0)).1

/-- `repo.determineVersionStyle` (main.go lines 1017-1048). -/
def determineVersionStyle (names : List (List Char)) : Style :=
  ⟨selectPrefix (tallyPrefixes names), !usesPatchAll names⟩

/-- `repo.branchNameForVersion` (main.go lines 1174-1179). -/
def branchNameForVersion (st : Style) (v : Version) : List Char :=
  if st.omitPatch then st.pfx ++ natDigits v.major ++ ".x".toList
  else st.pfx ++ natDigits v.major ++ ".x.x".toList

/-- `repo.tagNameForVersion` (main.go lines 1183-1185). -/
def tagNameForVersion (st : Style) (v : Version) : List Char := st.Format v

/-- `repo.releaseNameForVersion` (main.go lines 1189-1191). -/
def releaseNameForVersion (st : Style) (v : Version) : List Char := st.Format v

/-- The three missing sets `repo.validate` computes (main.go lines
1106-1155). -/
structure MissingSets where
  branches : VSet
  tags : VSet
  releases : VSet
deriving DecidableEq, Repr

/-- The missing-set computation of `repo.validate` (main.go lines 1117-1134):
the loop over the versions of the main branch's CHANGES document (the
`r.mainBranch == b` arm; no other branch adds to the missing sets).  Flavored
versions are skipped; an unflavored version is added to a missing set when
its formatted name is absent from the corresponding collection of existing
names. -/
def computeMissingSets (st : Style) (mainVersions : List Version)
    (branchNames tagNames releaseNames : List (List Char)) : MissingSets :=
  mainVersions.foldl
    (fun ms v =>
      if v.flavor ≠ [] then ms
      else
        let ms1 := if branchNameForVersion st v ∈ branchNames then ms
          else { ms with branches := setAdd ms.branches v }
        let ms2 := if tagNameForVersion st v ∈ tagNames then ms1
          else { ms1 with tags := setAdd ms1.tags v }
        if releaseNameForVersion st v ∈ releaseNames then ms2
        else { ms2 with releases := setAdd ms2.releases v })
    ⟨[], [], []⟩

/-- State of the backfill scan in `createMissingBranchesAndTags`
(main.go lines 553-586): the two unresolved sets, the two plans, and the
recorded per-commit errors (identified by the failing commit's hash).
Commit hashes are modelled as `Nat`. -/
structure ScanState where
  missingBranches : VSet
  missingTags : VSet
  branchesToCreate : List (Version × Nat)
  tagsToCreate : List (Version × Nat)
  errs : List Nat
deriving DecidableEq, Repr

/-- The per-commit snapshot processing of the scan: `g.Show` fetches the
document text (`none` models a fetch failure), `changes.Read` parses it, and
`c.Versions().Set()` yields the declared-version set.  Both failure modes
take the same record-error-and-continue path in the source. -/
def snapshotVersions (t : Option (List Char)) : Option (List Version) :=
  t.bind fun txt => (Read txt).map fun c => c.Versions

/-- One iteration of the scan loop of `createMissingBranchesAndTags`
(main.go lines 561-582): on failure record the commit and continue; on
success move every version in `versions.Union(missing).List()` (the sorted
intersection) from the unresolved set into the plan, paired with this
commit. -/
def scanStep (st : ScanState) (commit : Nat × Option (List Char)) : ScanState :=
  match snapshotVersions commit.2 with
  | none => { st with errs := st.errs ++ [commit.1] }
  | some versions =>
    { missingBranches := st.missingBranches.filter fun v => !decide (v ∈ versions),
      missingTags := st.missingTags.filter fun v => !decide (v ∈ versions),
      branchesToCreate := st.branchesToCreate ++
        (VSet.List (VSet.Union versions st.missingBranches)).map fun v => (v, commit.1),
      tagsToCreate := st.tagsToCreate ++
        (VSet.List (VSet.Union versions st.missingTags)).map fun v => (v, commit.1),
      errs := st.errs }

/-- The scan loop of `createMissingBranchesAndTags`: the source walks the git
log of the CHANGES path from index `len(log)-1` down to `0`, i.e. in
chronological order, so `olog` here is the commit list oldest first. -/
def runScan (olog : List (Nat × Option (List Char))) (st : ScanState) : ScanState :=
  olog.foldl scanStep st

/-- Whether a commit's snapshot fetches, parses, and declares version `v`
(`v ∈ c.Versions().Set()`). -/
def declares (commit : Nat × Option (List Char)) (v : Version) : Bool :=
  match snapshotVersions commit.2 with
  | some vs => decide (v ∈ vs)
  | none => false

/-- Single-kind view of one `scanStep` iteration, used to reason about the
branch and tag components of the scan uniformly: the state is one unresolved
set and its plan, the commit carries an already-derived declared-version set
(`none` for a fetch or parse failure). -/
def scanKindStep (acc : VSet × List (Version × Nat)) (commit : Nat × Option (List Version)) :
    VSet × List (Version × Nat) :=
  match commit.2 with
  | none => acc
  | some versions =>
    (acc.1.filter fun v => !decide (v ∈ versions),
     acc.2 ++ (VSet.List (VSet.Union versions acc.1)).map fun v => (v, commit.1))

/-- Single-kind view of the whole scan (commits oldest first). -/
def scanKind (missing : VSet) (plan : List (Version × Nat))
    (olog : List (Nat × Option (List Version))) : VSet × List (Version × Nat) :=
  olog.foldl scanKindStep (missing, plan)

/-- Drops the trailing blank lines of a list of lines (the effect of the
`endLine` loop of `Content.ReleaseNotes`, stated the way the spec words it). -/
def dropBlanksEnd (ls : List (List Char)) : List (List Char) :=
  (ls.reverse.dropWhile isBlankLine).reverse

/-- Modelled from the spec: a well-formed version string
`[prefix]MAJOR.MINOR[.PATCH][-FLAVOR]` assembled from its components, each
numeric component written as its canonical decimal numeral. -/
def buildVersionString (pfx : List Char) (maj minr : Nat) (patch : Option Nat)
    (flavor : List Char) : List Char :=
  pfx ++ natDigits maj ++ '.' :: natDigits minr ++
  (match patch with
   | some p => '.' :: natDigits p
   | none => []) ++
  (if flavor ≠ [] then '-' :: flavor else [])

/-- Modelled from the spec: the prefixes the version grammar admits — empty,
the bare `v`, or a word run followed by `-`. -/
def validPfxB (p : List Char) : Bool :=
  p = [] || p = ['v'] || (p.getLast? = some '-' && p.dropLast.all isWordC)

/-- Recognizes the non-monotonic-ordering findings of `Content.Validate`. -/
def isNonMonoF : Finding → Bool
  | Finding.nonMonotonic _ _ _ _ => true
  | _ => false

theorem mem_setAdd {s : VSet} {v a : Version} : a ∈ setAdd s v ↔ a ∈ s ∨ a = v := by
  unfold setAdd
  by_cases h : v ∈ s
  · simp only [if_pos h]
    constructor
    · exact Or.inl
    · rintro (h2 | rfl)
      · exact h2
      · exact h
  · simp [if_neg h]

theorem mem_unionFold (s : VSet) :
    ∀ (o : List Version) (acc : VSet) (a : Version),
      a ∈ o.foldl (fun out v => if v ∈ s then setAdd out v else out) acc ↔
        a ∈ acc ∨ (a ∈ o ∧ a ∈ s) := by
  intro o
  induction o with
  | nil => intro acc a; simp
  | cons w o ih =>
    intro acc a
    simp only [List.foldl_cons]
    rw [ih]
    by_cases hw : w ∈ s
    · simp only [if_pos hw, mem_setAdd, List.mem_cons]
      constructor
      · rintro ((h | rfl) | h)
        · exact Or.inl h
        · exact Or.inr ⟨Or.inl rfl, hw⟩
        · exact Or.inr ⟨Or.inr h.1, h.2⟩
      · rintro (h | ⟨(rfl | h), hs⟩)
        · exact Or.inl (Or.inl h)
        · exact Or.inl (Or.inr rfl)
        · exact Or.inr ⟨h, hs⟩
    · simp only [if_neg hw, List.mem_cons]
      constructor
      · rintro (h | h)
        · exact Or.inl h
        · exact Or.inr ⟨Or.inr h.1, h.2⟩
      · rintro (h | ⟨(rfl | h), hs⟩)
        · exact Or.inl h
        · exact absurd hs hw
        · exact Or.inr ⟨h, hs⟩

theorem mem_VSetUnion {s o : VSet} {a : Version} :
    a ∈ VSet.Union s o ↔ a ∈ o ∧ a ∈ s := by
  unfold VSet.Union
  rw [mem_unionFold]
  simp

/-- C10: the operation named `Set.Union` computes the intersection of the two
version sets, not their union — a version is in the result exactly when it is
in both `s` and `o`, so a version present in only one of them never appears. -/
theorem C10_union_is_intersection (s o : VSet) (v : Version) :
    v ∈ VSet.Union s o ↔ v ∈ s ∧ v ∈ o := by
  rw [mem_VSetUnion]; exact And.comm

/-- C1: evaluating `Compare` at equal (major, minor, patch) with an empty
flavor on the left and a non-empty flavor on the right, flavor comparison
enabled.  The claim (and the spec's ordering section) require the empty
flavor to compare strictly greater; the code returns -1, ordering it strictly
below. -/
theorem C1_empty_flavor_compares_below :
    Compare ⟨2, 2, 1, []⟩ ⟨2, 2, 1, ['d', 'e', 'v']⟩ true = -1 ∧
    Version.GreaterThan ⟨2, 2, 1, []⟩ ⟨2, 2, 1, ['d', 'e', 'v']⟩ true = false := by
  decide

theorem usesPatchAll_eq (names : List (List Char)) :
    ∀ acc : Bool,
      names.foldl
        (fun acc n => match ParseStyle n with
          | some s => !s.omitPatch && acc
          | none => acc) acc =
      (acc && !(names.any fun n => ((ParseStyle n).map Style.omitPatch).getD false)) := by
  induction names with
  | nil => intro acc; simp
  | cons n rest ih =>
    intro acc
    simp only [List.foldl_cons, List.any_cons, ih]
    cases h : ParseStyle n with
    | none => simp
    | some s =>
      simp only [Option.map_some', Option.getD_some]
      cases acc <;> cases s.omitPatch <;> simp

theorem tallyPrefixes_eq_nil (names : List (List Char))
    (h : ∀ n ∈ names, ParseStyle n = none) : tallyPrefixes names = [] := by
  unfold tallyPrefixes
  induction names with
  | nil => rfl
  | cons n rest ih =>
    simp only [List.foldl_cons]
    rw [h n (List.mem_cons_self n rest)]
    exact ih fun m hm => h m (List.mem_cons_of_mem n hm)

/-- C3 (amended): `omitPatch` of the inferred style is true exactly when at
least one existing name that parses under the style grammar omitted the patch
digit (hence false when no name parses, or when every parsed name carried the
patch digit); and when no name parses at all the inferred style is prefix
"release-" with the patch digit included. -/
theorem C3_omitPatch_any_and_default (names : List (List Char)) :
    ((determineVersionStyle names).omitPatch =
      (names.any fun n => ((ParseStyle n).map Style.omitPatch).getD false)) ∧
    ((∀ n ∈ names, ParseStyle n = none) →
      determineVersionStyle names = ⟨"release-".toList, false⟩) := by
  constructor
  · unfold determineVersionStyle usesPatchAll
    rw [usesPatchAll_eq]
    simp
  · intro h
    unfold determineVersionStyle usesPatchAll
    rw [tallyPrefixes_eq_nil names h, usesPatchAll_eq]
    have hany : (names.any fun n => ((ParseStyle n).map Style.omitPatch).getD false) = false := by
      rw [List.any_eq_false]
      intro n hn
      rw [h n hn]
      simp
    rw [hany]
    rfl

theorem C3_omitPatch_any_and_default_witness :
    determineVersionStyle [['f', 'o', 'o']] = ⟨"release-".toList, false⟩ :=
  (C3_omitPatch_any_and_default [['f', 'o', 'o']]).2 (by decide)

/-- C3 (counterexample): with existing names "v1.2" and "v1.2.3", the second
parses with an explicit patch digit, so the claim requires `omitPatch` to be
false; the code infers `omitPatch = true` because one parsed name omitted the
digit. -/
theorem C3_counterexample :
    (determineVersionStyle [['v', '1', '.', '2'], ['v', '1', '.', '2', '.', '3']]).omitPatch = true ∧
    ParseStyle ['v', '1', '.', '2', '.', '3'] = some ⟨['v'], false⟩ := by
  decide

/-- C5 (counterexample): "1.02" matches the version grammar, but parsing and
re-formatting it under its own inferred style yields "1.2", not "1.02" — the
round trip fails on numeric components with leading zeros. -/
theorem C5_counterexample :
    Parse ['1', '.', '0', '2'] = some ⟨1, 2, 0, []⟩ ∧
    ParseStyle ['1', '.', '0', '2'] = some ⟨[], true⟩ ∧
    Style.Format ⟨[], true⟩ ⟨1, 2, 0, []⟩ = ['1', '.', '2'] := by
  decide

theorem filter_pairFindings (a b : VersionEntry) :
    (pairFindings a b).filter isNonMonoF =
      if a.version.GreaterThan b.version false then []
      else [Finding.nonMonotonic a.version a.line b.version b.line] := by
  unfold pairFindings
  rw [List.filter_append]
  by_cases h1 : b.version.flavor ≠ []
  · by_cases h2 : a.version.GreaterThan b.version false
    · simp [h1, h2, isNonMonoF]
    · simp [h1, h2, isNonMonoF]
  · by_cases h2 : a.version.GreaterThan b.version false
    · simp [h1, h2, isNonMonoF]
    · simp [h1, h2, isNonMonoF]

theorem validatePairs_filter (es : List VersionEntry) :
    (validatePairs es).filter isNonMonoF =
      (es.zip es.tail).filterMap fun p =>
        if p.1.version.GreaterThan p.2.version false then none
        else some (Finding.nonMonotonic p.1.version p.1.line p.2.version p.2.line) := by
  induction es with
  | nil => rfl
  | cons a tl ih =>
    cases tl with
    | nil => rfl
    | cons b rest =>
      show ((pairFindings a b ++ validatePairs (b :: rest)).filter isNonMonoF) = _
      rw [List.filter_append, filter_pairFindings, ih]
      show _ = (((a, b) :: (b :: rest).zip rest).filterMap _)
      rw [List.filterMap_cons]
      by_cases h : a.version.GreaterThan b.version false
      · simp only [if_pos h]; rfl
      · simp only [if_neg h]; rfl

/-- C4 (amended): for every parsed document, the non-monotonic-ordering
findings of `validate` are exactly one finding — citing both versions and
both line numbers — for every document-order-adjacent pair whose
earlier-in-document entry does not compare strictly greater than the later
one under flavor-IGNORING comparison (the code passes `compareFlavor =
false`); in particular two adjacent identical versions yield exactly one such
finding, and a strictly-decreasing document yields none. -/
theorem C4_validate_nonmonotonic_flavorless (c : Content) (isDev : Bool) :
    (Content.Validate c isDev).filter isNonMonoF =
      (c.versions.zip c.versions.tail).filterMap fun p =>
        if p.1.version.GreaterThan p.2.version false then none
        else some (Finding.nonMonotonic p.1.version p.1.line p.2.version p.2.line) := by
  unfold Content.Validate
  cases hv : c.versions with
  | nil => rfl
  | cons e0 rest =>
    rw [List.filter_append, ← validatePairs_filter]
    by_cases h : isDev && e0.version.flavor = []
    · simp [h, isNonMonoF]
    · simp [h]

/-- C4 (counterexample): in the document "1.0.0-b\n1.0.0-a" the top entry
compares strictly greater than the second under flavor-aware comparison
("b" > "a" lexicographically), so the claim as stated predicts no
non-monotonic-ordering finding for the pair; `validate` reports one, because
it compares with flavor comparison disabled, under which the two are equal. -/
theorem C4_counterexample :
    Finding.nonMonotonic ⟨1, 0, 0, ['b']⟩ 1 ⟨1, 0, 0, ['a']⟩ 2 ∈
      Content.Validate
        ((Read ['1', '.', '0', '.', '0', '-', 'b', '\n',
                '1', '.', '0', '.', '0', '-', 'a']).getD ⟨[], []⟩) true ∧
    Compare ⟨1, 0, 0, ['b']⟩ ⟨1, 0, 0, ['a']⟩ true = 1 := by
  decide

theorem splitLines_ne_nil (l : List Char) : splitLines l ≠ [] := by
  cases l with
  | nil => simp [splitLines]
  | cons c rest =>
    unfold splitLines
    by_cases h : c = '\n'
    · simp [h]
    · simp only [if_neg h]
      cases splitLines rest <;> simp

theorem joinLines_splitLines (l : List Char) : joinLines (splitLines l) = l := by
  induction l with
  | nil => rfl
  | cons c rest ih =>
    unfold splitLines
    by_cases h : c = '\n'
    · subst h
      simp only [if_pos rfl]
      cases hs : splitLines rest with
      | nil => exact absurd hs (splitLines_ne_nil rest)
      | cons a t =>
        show '\n' :: joinLines (a :: t) = '\n' :: rest
        rw [← hs, ih]
    · simp only [if_neg h]
      cases hs : splitLines rest with
      | nil => exact absurd hs (splitLines_ne_nil rest)
      | cons a t =>
        cases t with
        | nil =>
          show c :: a = c :: rest
          have : joinLines (a :: ([] : List (List Char))) = rest := by rw [← hs]; exact ih
          simpa using this
        | cons x xs =>
          show (c :: a) ++ '\n' :: joinLines (x :: xs) = c :: rest
          have : joinLines (a :: x :: xs) = rest := by rw [← hs]; exact ih
          show c :: (a ++ '\n' :: joinLines (x :: xs)) = c :: rest
          rw [show a ++ '\n' :: joinLines (x :: xs) = joinLines (a :: x :: xs) from rfl, this]

/-- C6: for every text on which `Read` succeeds, serializing the resulting
document reproduces the input exactly — parsing stores the split lines
verbatim and `String` re-joins them, so no line is added, dropped or
altered. -/
theorem C6_read_string_round_trip (body : List Char) (c : Content)
    (h : Read body = some c) : Content.String c = body := by
  unfold Read at h
  cases hp : parseFrom 0 (splitLines body) with
  | none => rw [hp] at h; exact absurd h (by simp)
  | some es =>
    rw [hp] at h
    simp only [Option.map_some'] at h
    cases h
    exact joinLines_splitLines body

theorem C6_read_string_round_trip_witness :
    Content.String ((Read ['x', '\n', '1', '.', '2', '.', '3', ' ', '\n']).getD ⟨[], []⟩) =
      ['x', '\n', '1', '.', '2', '.', '3', ' ', '\n'] :=
  C6_read_string_round_trip _ _ (by decide)

theorem mem_setAddFold (P : Version → Prop) [DecidablePred P] :
    ∀ (vs : List Version) (acc : VSet) (a : Version),
      a ∈ vs.foldl (fun b v => if P v then setAdd b v else b) acc ↔
        a ∈ acc ∨ (a ∈ vs ∧ P a) := by
  intro vs
  induction vs with
  | nil => intro acc a; simp
  | cons w ws ih =>
    intro acc a
    simp only [List.foldl_cons]
    rw [ih]
    by_cases hw : P w
    · simp only [if_pos hw, mem_setAdd, List.mem_cons]
      constructor
      · rintro ((h | rfl) | h)
        · exact Or.inl h
        · exact Or.inr ⟨Or.inl rfl, hw⟩
        · exact Or.inr ⟨Or.inr h.1, h.2⟩
      · rintro (h | ⟨(rfl | h), hp⟩)
        · exact Or.inl (Or.inl h)
        · exact Or.inl (Or.inr rfl)
        · exact Or.inr ⟨h, hp⟩
    · simp only [if_neg hw, List.mem_cons]
      constructor
      · rintro (h | h)
        · exact Or.inl h
        · exact Or.inr ⟨Or.inr h.1, h.2⟩
      · rintro (h | ⟨(rfl | h), hp⟩)
        · exact Or.inl h
        · exact absurd hp hw
        · exact Or.inr ⟨h, hp⟩

theorem cms_step_branches (st : Style) (bN tN rN : List (List Char))
    (ms : MissingSets) (v : Version) :
    ((fun ms v =>
      if v.flavor ≠ [] then ms
      else
        let ms1 := if branchNameForVersion st v ∈ bN then ms
          else { ms with branches := setAdd ms.branches v }
        let ms2 := if tagNameForVersion st v ∈ tN then ms1
          else { ms1 with tags := setAdd ms1.tags v }
        if releaseNameForVersion st v ∈ rN then ms2
        else { ms2 with releases := setAdd ms2.releases v }) ms v).branches =
    if v.flavor = [] ∧ branchNameForVersion st v ∉ bN then setAdd ms.branches v
    else ms.branches := by
  by_cases hf : v.flavor = [] <;>
    by_cases hb : branchNameForVersion st v ∈ bN <;>
      by_cases ht : tagNameForVersion st v ∈ tN <;>
        by_cases hr : releaseNameForVersion st v ∈ rN <;>
          simp [hf, hb, ht, hr]

theorem cms_step_tags (st : Style) (bN tN rN : List (List Char))
    (ms : MissingSets) (v : Version) :
    ((fun ms v =>
      if v.flavor ≠ [] then ms
      else
        let ms1 := if branchNameForVersion st v ∈ bN then ms
          else { ms with branches := setAdd ms.branches v }
        let ms2 := if tagNameForVersion st v ∈ tN then ms1
          else { ms1 with tags := setAdd ms1.tags v }
        if releaseNameForVersion st v ∈ rN then ms2
        else { ms2 with releases := setAdd ms2.releases v }) ms v).tags =
    if v.flavor = [] ∧ tagNameForVersion st v ∉ tN then setAdd ms.tags v
    else ms.tags := by
  by_cases hf : v.flavor = [] <;>
    by_cases hb : branchNameForVersion st v ∈ bN <;>
      by_cases ht : tagNameForVersion st v ∈ tN <;>
        by_cases hr : releaseNameForVersion st v ∈ rN <;>
          simp [hf, hb, ht, hr]

theorem cms_step_releases (st : Style) (bN tN rN : List (List Char))
    (ms : MissingSets) (v : Version) :
    ((fun ms v =>
      if v.flavor ≠ [] then ms
      else
        let ms1 := if branchNameForVersion st v ∈ bN then ms
          else { ms with branches := setAdd ms.branches v }
        let ms2 := if tagNameForVersion st v ∈ tN then ms1
          else { ms1 with tags := setAdd ms1.tags v }
        if releaseNameForVersion st v ∈ rN then ms2
        else { ms2 with releases := setAdd ms2.releases v }) ms v).releases =
    if v.flavor = [] ∧ releaseNameForVersion st v ∉ rN then setAdd ms.releases v
    else ms.releases := by
  by_cases hf : v.flavor = [] <;>
    by_cases hb : branchNameForVersion st v ∈ bN <;>
      by_cases ht : tagNameForVersion st v ∈ tN <;>
        by_cases hr : releaseNameForVersion st v ∈ rN <;>
          simp [hf, hb, ht, hr]

theorem cms_fold_branches (st : Style) (bN tN rN : List (List Char)) :
    ∀ (vs : List Version) (ms : MissingSets),
      (vs.foldl
        (fun ms v =>
          if v.flavor ≠ [] then ms
          else
            let ms1 := if branchNameForVersion st v ∈ bN then ms
              else { ms with branches := setAdd ms.branches v }
            let ms2 := if tagNameForVersion st v ∈ tN then ms1
              else { ms1 with tags := setAdd ms1.tags v }
            if releaseNameForVersion st v ∈ rN then ms2
            else { ms2 with releases := setAdd ms2.releases v }) ms).branches =
      vs.foldl
        (fun b v =>
          if v.flavor = [] ∧ branchNameForVersion st v ∉ bN then setAdd b v else b)
        ms.branches := by
  intro vs
  induction vs with
  | nil => intro ms; rfl
  | cons w ws ih =>
    intro ms
    simp only [List.foldl_cons]
    rw [ih]
    rw [cms_step_branches st bN tN rN ms w]

theorem cms_fold_tags (st : Style) (bN tN rN : List (List Char)) :
    ∀ (vs : List Version) (ms : MissingSets),
      (vs.foldl
        (fun ms v =>
          if v.flavor ≠ [] then ms
          else
            let ms1 := if branchNameForVersion st v ∈ bN then ms
              else { ms with branches := setAdd ms.branches v }
            let ms2 := if tagNameForVersion st v ∈ tN then ms1
              else { ms1 with tags := setAdd ms1.tags v }
            if releaseNameForVersion st v ∈ rN then ms2
            else { ms2 with releases := setAdd ms2.releases v }) ms).tags =
      vs.foldl
        (fun b v =>
          if v.flavor = [] ∧ tagNameForVersion st v ∉ tN then setAdd b v else b)
        ms.tags := by
  intro vs
  induction vs with
  | nil => intro ms; rfl
  | cons w ws ih =>
    intro ms
    simp only [List.foldl_cons]
    rw [ih]
    rw [cms_step_tags st bN tN rN ms w]

theorem cms_fold_releases (st : Style) (bN tN rN : List (List Char)) :
    ∀ (vs : List Version) (ms : MissingSets),
      (vs.foldl
        (fun ms v =>
          if v.flavor ≠ [] then ms
          else
            let ms1 := if branchNameForVersion st v ∈ bN then ms
              else { ms with branches := setAdd ms.branches v }
            let ms2 := if tagNameForVersion st v ∈ tN then ms1
              else { ms1 with tags := setAdd ms1.tags v }
            if releaseNameForVersion st v ∈ rN then ms2
            else { ms2 with releases := setAdd ms2.releases v }) ms).releases =
      vs.foldl
        (fun b v =>
          if v.flavor = [] ∧ releaseNameForVersion st v ∉ rN then setAdd b v else b)
        ms.releases := by
  intro vs
  induction vs with
  | nil => intro ms; rfl
  | cons w ws ih =>
    intro ms
    simp only [List.foldl_cons]
    rw [ih]
    rw [cms_step_releases st bN tN rN ms w]

/-- C8: for every main-branch document and existing branch/tag/release name
collections, a version is in a missing set exactly when it is declared
unflavored among the document's versions and its style-formatted artifact
name is absent from the corresponding existing collection; in particular a
flavored declared version is never in any missing set. -/
theorem C8_missing_sets_are_set_differences (st : Style) (c : Content)
    (bN tN rN : List (List Char)) (v : Version) :
    (v ∈ (computeMissingSets st (Content.Versions c) bN tN rN).branches ↔
      v ∈ Content.Versions c ∧ v.flavor = [] ∧ branchNameForVersion st v ∉ bN) ∧
    (v ∈ (computeMissingSets st (Content.Versions c) bN tN rN).tags ↔
      v ∈ Content.Versions c ∧ v.flavor = [] ∧ tagNameForVersion st v ∉ tN) ∧
    (v ∈ (computeMissingSets st (Content.Versions c) bN tN rN).releases ↔
      v ∈ Content.Versions c ∧ v.flavor = [] ∧ releaseNameForVersion st v ∉ rN) := by
  unfold computeMissingSets
  refine ⟨?_, ?_, ?_⟩
  · rw [cms_fold_branches st bN tN rN]
    rw [mem_setAddFold (fun v => v.flavor = [] ∧ branchNameForVersion st v ∉ bN)]
    simp [and_assoc]
  · rw [cms_fold_tags st bN tN rN]
    rw [mem_setAddFold (fun v => v.flavor = [] ∧ tagNameForVersion st v ∉ tN)]
    simp [and_assoc]
  · rw [cms_fold_releases st bN tN rN]
    rw [mem_setAddFold (fun v => v.flavor = [] ∧ releaseNameForVersion st v ∉ rN)]
    simp [and_assoc]

theorem runScan_cons (cm : Nat × Option (List Char)) (olog : List (Nat × Option (List Char)))
    (st : ScanState) : runScan (cm :: olog) st = runScan olog (scanStep st cm) := rfl

theorem insertDesc_perm (v : Version) (l : List Version) :
    (insertDesc v l).Perm (v :: l) := by
  induction l with
  | nil => exact List.Perm.refl _
  | cons w ws ih =>
    unfold insertDesc
    by_cases h : v.GreaterThan w true
    · simp only [if_pos h]
      exact List.Perm.refl _
    · simp only [if_neg h]
      exact (List.Perm.cons w ih).trans (List.Perm.swap v w ws)

theorem sortDesc_perm (l : List Version) : (sortDesc l).Perm l := by
  induction l with
  | nil => exact List.Perm.refl _
  | cons v vs ih =>
    exact (insertDesc_perm v (sortDesc vs)).trans (List.Perm.cons v ih)

theorem mem_sortDesc {l : List Version} {a : Version} : a ∈ sortDesc l ↔ a ∈ l :=
  (sortDesc_perm l).mem_iff

theorem nodup_sortDesc {l : List Version} (h : l.Nodup) : (sortDesc l).Nodup :=
  ((sortDesc_perm l).nodup_iff).2 h

theorem nodup_setAdd {s : VSet} (h : s.Nodup) (v : Version) : (setAdd s v).Nodup := by
  unfold setAdd
  by_cases hv : v ∈ s
  · simp only [if_pos hv]; exact h
  · simp only [if_neg hv]
    rw [← List.concat_eq_append]
    exact h.concat hv

theorem nodup_unionFold (s : VSet) :
    ∀ (o : List Version) (acc : VSet), acc.Nodup →
      (o.foldl (fun out v => if v ∈ s then setAdd out v else out) acc).Nodup := by
  intro o
  induction o with
  | nil => intro acc h; exact h
  | cons w ws ih =>
    intro acc h
    simp only [List.foldl_cons]
    by_cases hw : w ∈ s
    · simp only [if_pos hw]; exact ih _ (nodup_setAdd h w)
    · simp only [if_neg hw]; exact ih _ h

theorem nodup_VSetUnion (s o : VSet) : (VSet.Union s o).Nodup :=
  nodup_unionFold s o [] List.nodup_nil

theorem mem_VSetList {s : VSet} {a : Version} : a ∈ VSet.List s ↔ a ∈ s :=
  mem_sortDesc

/-- C9: a commit whose snapshot fails to fetch or parse never aborts the
scan: the whole scan equals the scan over only the commits whose snapshots
succeed — so every subsequent commit is still processed and the failing
commit changes neither the unresolved sets nor the plans — with the failing
commits' hashes appended, in order, to the recorded errors. -/
theorem C9_scan_failures_recorded_and_skipped (olog : List (Nat × Option (List Char)))
    (mb mt : VSet) (bp tp : List (Version × Nat)) (e : List Nat) :
    runScan olog ⟨mb, mt, bp, tp, e⟩ =
      { runScan (olog.filter fun cm => (snapshotVersions cm.2).isSome)
          ⟨mb, mt, bp, tp, []⟩ with
        errs := e ++ (olog.filter fun cm => (snapshotVersions cm.2).isNone).map Prod.fst } := by
  induction olog generalizing mb mt bp tp e with
  | nil => simp [runScan]
  | cons cm rest ih =>
    cases h : snapshotVersions cm.2 with
    | none =>
      have hstep : scanStep ⟨mb, mt, bp, tp, e⟩ cm = ⟨mb, mt, bp, tp, e ++ [cm.1]⟩ := by
        unfold scanStep; rw [h]
      show runScan rest (scanStep ⟨mb, mt, bp, tp, e⟩ cm) = _
      rw [hstep, ih]
      have hfil : (cm :: rest).filter (fun cm => (snapshotVersions cm.2).isSome) =
          rest.filter fun cm => (snapshotVersions cm.2).isSome := by
        rw [List.filter_cons]
        simp [h]
      have hfil2 : (cm :: rest).filter (fun cm => (snapshotVersions cm.2).isNone) =
          cm :: rest.filter fun cm => (snapshotVersions cm.2).isNone := by
        rw [List.filter_cons]
        simp [h]
      rw [hfil, hfil2]
      simp
    | some versions =>
      have hstep : scanStep ⟨mb, mt, bp, tp, e⟩ cm =
          ⟨mb.filter fun v => !decide (v ∈ versions),
           mt.filter fun v => !decide (v ∈ versions),
           bp ++ (VSet.List (VSet.Union versions mb)).map fun v => (v, cm.1),
           tp ++ (VSet.List (VSet.Union versions mt)).map fun v => (v, cm.1),
           e⟩ := by
        unfold scanStep; rw [h]
      have hstep0 : scanStep ⟨mb, mt, bp, tp, []⟩ cm =
          ⟨mb.filter fun v => !decide (v ∈ versions),
           mt.filter fun v => !decide (v ∈ versions),
           bp ++ (VSet.List (VSet.Union versions mb)).map fun v => (v, cm.1),
           tp ++ (VSet.List (VSet.Union versions mt)).map fun v => (v, cm.1),
           ([] : List Nat)⟩ := by
        unfold scanStep; rw [h]
      have hfil : (cm :: rest).filter (fun cm => (snapshotVersions cm.2).isSome) =
          cm :: rest.filter fun cm => (snapshotVersions cm.2).isSome := by
        rw [List.filter_cons]
        simp [h]
      have hfil2 : (cm :: rest).filter (fun cm => (snapshotVersions cm.2).isNone) =
          rest.filter fun cm => (snapshotVersions cm.2).isNone := by
        rw [List.filter_cons]
        simp [h]
      rw [runScan_cons, hstep, ih, hfil, hfil2, runScan_cons, hstep0]

theorem scanKind_cons (m : VSet) (p : List (Version × Nat))
    (cm : Nat × Option (List Version)) (olog : List (Nat × Option (List Version))) :
    scanKind m p (cm :: olog) = scanKind (scanKindStep (m, p) cm).1 (scanKindStep (m, p) cm).2 olog := rfl

theorem filter_pairs_nil (l : List Version) (hsh : Nat) (v : Version)
    (h : ∀ x ∈ l, x ≠ v) :
    ((l.map fun w => (w, hsh)).filter fun q => decide (q.1 = v)) = [] := by
  induction l with
  | nil => rfl
  | cons w ws ih =>
    simp only [List.map_cons, List.filter_cons]
    have hw : decide (((w, hsh) : Version × Nat).1 = v) = false := by
      simp [h w (List.mem_cons_self w ws)]
    rw [hw]
    simp only [Bool.false_eq_true, if_false]
    exact ih fun x hx => h x (List.mem_cons_of_mem w hx)

theorem filter_map_pair_once (l : List Version) (hsh : Nat) (v : Version)
    (hnd : l.Nodup) (hv : v ∈ l) :
    ((l.map fun w => (w, hsh)).filter fun q => decide (q.1 = v)) = [(v, hsh)] := by
  induction l with
  | nil => cases hv
  | cons w ws ih =>
    simp only [List.map_cons, List.filter_cons]
    by_cases hvw : w = v
    · subst hvw
      have h1 : decide (((w, hsh) : Version × Nat).1 = w) = true := by simp
      rw [h1]
      simp only [if_true]
      have hnotin : ∀ x ∈ ws, x ≠ w := fun x hx heq =>
        (List.nodup_cons.1 hnd).1 (heq ▸ hx)
      rw [filter_pairs_nil ws hsh w hnotin]
    · have hv2 : v ∈ ws := by
        rcases List.mem_cons.1 hv with heq | h2
        · exact absurd heq.symm hvw
        · exact h2
      have h1 : decide (((w, hsh) : Version × Nat).1 = v) = false := by simp [hvw]
      rw [h1]
      simp only [Bool.false_eq_true, if_false]
      exact ih (List.nodup_cons.1 hnd).2 hv2

theorem scanKind_not_mem (olog : List (Nat × Option (List Version))) :
    ∀ (m : VSet) (p : List (Version × Nat)) (v : Version), v ∉ m →
      ((scanKind m p olog).2.filter fun q => decide (q.1 = v)) =
        p.filter fun q => decide (q.1 = v) := by
  induction olog with
  | nil => intro m p v _; rfl
  | cons cm rest ih =>
    intro m p v hv
    rw [scanKind_cons]
    cases h : cm.2 with
    | none =>
      have : scanKindStep (m, p) cm = (m, p) := by unfold scanKindStep; rw [h]
      rw [this]
      exact ih m p v hv
    | some versions =>
      have hstep : scanKindStep (m, p) cm =
          (m.filter fun w => !decide (w ∈ versions),
           p ++ (VSet.List (VSet.Union versions m)).map fun w => (w, cm.1)) := by
        unfold scanKindStep; rw [h]
      rw [hstep]
      have hv2 : v ∉ m.filter fun w => !decide (w ∈ versions) := fun hmem =>
        hv (List.mem_of_mem_filter hmem)
      rw [ih _ _ v hv2, List.filter_append]
      have hnil : (((VSet.List (VSet.Union versions m)).map fun w => (w, cm.1)).filter
          fun q => decide (q.1 = v)) = [] := by
        refine filter_pairs_nil _ _ _ fun x hx heq => ?_
        exact hv (heq ▸ (mem_VSetUnion.1 (mem_VSetList.1 hx)).1)
      rw [hnil, List.append_nil]

theorem scanKind_first_decl (olog : List (Nat × Option (List Version))) :
    ∀ (m : VSet) (p : List (Version × Nat)) (v : Version) (i : Nat) (hi : i < olog.length),
      m.Nodup → v ∈ m → (p.filter fun q => decide (q.1 = v)) = [] →
      (∃ vs, (olog.get ⟨i, hi⟩).2 = some vs ∧ v ∈ vs) →
      (∀ j (hj : j < olog.length), j < i →
        ∀ vs, (olog.get ⟨j, hj⟩).2 = some vs → v ∉ vs) →
      ((scanKind m p olog).2.filter fun q => decide (q.1 = v)) =
        [(v, (olog.get ⟨i, hi⟩).1)] := by
  induction olog with
  | nil => intro m p v i hi; cases hi
  | cons cm rest ih =>
    intro m p v i hi hnd hv hp hdecl hbefore
    cases i with
    | zero =>
      obtain ⟨vs, hcm, hvvs⟩ := hdecl
      rw [scanKind_cons]
      have hstep : scanKindStep (m, p) cm =
          (m.filter fun w => !decide (w ∈ vs),
           p ++ (VSet.List (VSet.Union vs m)).map fun w => (w, cm.1)) := by
        unfold scanKindStep
        have : cm.2 = some vs := hcm
        rw [this]
      rw [hstep]
      have hvout : v ∉ m.filter fun w => !decide (w ∈ vs) := by
        intro hmem
        have := List.of_mem_filter hmem
        simp [hvvs] at this
      rw [scanKind_not_mem rest _ _ v hvout, List.filter_append, hp, List.nil_append]
      have hvin : v ∈ VSet.List (VSet.Union vs m) :=
        mem_VSetList.2 (mem_VSetUnion.2 ⟨hv, hvvs⟩)
      have hlnd : (VSet.List (VSet.Union vs m)).Nodup :=
        nodup_sortDesc (nodup_VSetUnion vs m)
      exact filter_map_pair_once _ _ _ hlnd hvin
    | succ j =>
      have hnotcm : ∀ vs, cm.2 = some vs → v ∉ vs := by
        intro vs hcm
        exact hbefore 0 (Nat.zero_lt_succ _) (Nat.zero_lt_succ _) vs hcm
      rw [scanKind_cons]
      cases h : cm.2 with
      | none =>
        have : scanKindStep (m, p) cm = (m, p) := by unfold scanKindStep; rw [h]
        rw [this]
        exact ih m p v j (Nat.lt_of_succ_lt_succ hi) hnd hv hp hdecl
          fun k hk hkj vs hvs => hbefore (k + 1) (Nat.succ_lt_succ hk) (Nat.succ_lt_succ hkj) vs hvs
      | some versions =>
        have hvnot : v ∉ versions := hnotcm versions h
        have hstep : scanKindStep (m, p) cm =
            (m.filter fun w => !decide (w ∈ versions),
             p ++ (VSet.List (VSet.Union versions m)).map fun w => (w, cm.1)) := by
          unfold scanKindStep; rw [h]
        rw [hstep]
        have hvin : v ∈ m.filter fun w => !decide (w ∈ versions) :=
          List.mem_filter.2 ⟨hv, by simp [hvnot]⟩
        have hpnew : ((p ++ (VSet.List (VSet.Union versions m)).map fun w => (w, cm.1)).filter
            fun q => decide (q.1 = v)) = [] := by
          rw [List.filter_append, hp, List.nil_append]
          refine filter_pairs_nil _ _ _ fun x hx heq => ?_
          exact hvnot (heq ▸ (mem_VSetUnion.1 (mem_VSetList.1 hx)).2)
        exact ih _ _ v j (Nat.lt_of_succ_lt_succ hi) (hnd.filter _) hvin hpnew hdecl
          fun k hk hkj vs hvs => hbefore (k + 1) (Nat.succ_lt_succ hk) (Nat.succ_lt_succ hkj) vs hvs

theorem runScan_proj (olog : List (Nat × Option (List Char))) :
    ∀ st : ScanState,
      (runScan olog st).missingBranches =
        (scanKind st.missingBranches st.branchesToCreate
          (olog.map fun cm => (cm.1, snapshotVersions cm.2))).1 ∧
      (runScan olog st).branchesToCreate =
        (scanKind st.missingBranches st.branchesToCreate
          (olog.map fun cm => (cm.1, snapshotVersions cm.2))).2 ∧
      (runScan olog st).missingTags =
        (scanKind st.missingTags st.tagsToCreate
          (olog.map fun cm => (cm.1, snapshotVersions cm.2))).1 ∧
      (runScan olog st).tagsToCreate =
        (scanKind st.missingTags st.tagsToCreate
          (olog.map fun cm => (cm.1, snapshotVersions cm.2))).2 := by
  induction olog with
  | nil => intro st; exact ⟨rfl, rfl, rfl, rfl⟩
  | cons cm rest ih =>
    intro st
    rw [List.map_cons, runScan_cons, scanKind_cons, scanKind_cons]
    cases h : snapshotVersions cm.2 with
    | none =>
      have hstep : scanStep st cm = { st with errs := st.errs ++ [cm.1] } := by
        unfold scanStep; rw [h]
      have hks : scanKindStep (st.missingBranches, st.branchesToCreate) (cm.1, none) =
          (st.missingBranches, st.branchesToCreate) := rfl
      have hkt : scanKindStep (st.missingTags, st.tagsToCreate) (cm.1, none) =
          (st.missingTags, st.tagsToCreate) := rfl
      rw [hstep, hks, hkt]
      exact ih { st with errs := st.errs ++ [cm.1] }
    | some versions =>
      have hstep : scanStep st cm =
          { missingBranches := st.missingBranches.filter fun v => !decide (v ∈ versions),
            missingTags := st.missingTags.filter fun v => !decide (v ∈ versions),
            branchesToCreate := st.branchesToCreate ++
              (VSet.List (VSet.Union versions st.missingBranches)).map fun v => (v, cm.1),
            tagsToCreate := st.tagsToCreate ++
              (VSet.List (VSet.Union versions st.missingTags)).map fun v => (v, cm.1),
            errs := st.errs } := by
        unfold scanStep; rw [h]
      have hks : scanKindStep (st.missingBranches, st.branchesToCreate) (cm.1, some versions) =
          (st.missingBranches.filter fun v => !decide (v ∈ versions),
           st.branchesToCreate ++
             (VSet.List (VSet.Union versions st.missingBranches)).map fun v => (v, cm.1)) := rfl
      have hkt : scanKindStep (st.missingTags, st.tagsToCreate) (cm.1, some versions) =
          (st.missingTags.filter fun v => !decide (v ∈ versions),
           st.tagsToCreate ++
             (VSet.List (VSet.Union versions st.missingTags)).map fun v => (v, cm.1)) := rfl
      rw [hstep, hks, hkt]
      exact ih _

theorem declares_true_iff (cm : Nat × Option (List Char)) (v : Version) :
    declares cm v = true ↔ ∃ vs, snapshotVersions cm.2 = some vs ∧ v ∈ vs := by
  unfold declares
  cases h : snapshotVersions cm.2 <;> simp

theorem declares_false_iff (cm : Nat × Option (List Char)) (v : Version) :
    declares cm v = false ↔ ∀ vs, snapshotVersions cm.2 = some vs → v ∉ vs := by
  unfold declares
  cases h : snapshotVersions cm.2 <;> simp

/-- C2: for every version in an unresolved set at the start of the backfill
scan, if some commit's snapshot (fetched and parsed successfully) declares
that version, the scan's plan pairs it exactly once, and with the
chronologically earliest such commit — the scan walks the log oldest first,
appends the pair at the first snapshot declaring a still-unresolved version,
and removes the version from the unresolved set, so no later commit can be
chosen.  This holds for the branch plan and the tag plan alike. -/
theorem C2_backfill_pairs_earliest_commit
    (olog : List (Nat × Option (List Char))) (mb mt : VSet) (v : Version)
    (i : Nat) (hi : i < olog.length)
    (hndb : mb.Nodup) (hndt : mt.Nodup)
    (hdecl : declares (olog.get ⟨i, hi⟩) v = true)
    (hfirst : ∀ j (hj : j < olog.length), j < i → declares (olog.get ⟨j, hj⟩) v = false) :
    (v ∈ mb →
      ((runScan olog ⟨mb, mt, [], [], []⟩).branchesToCreate.filter
        fun q => decide (q.1 = v)) = [(v, (olog.get ⟨i, hi⟩).1)]) ∧
    (v ∈ mt →
      ((runScan olog ⟨mb, mt, [], [], []⟩).tagsToCreate.filter
        fun q => decide (q.1 = v)) = [(v, (olog.get ⟨i, hi⟩).1)]) := by
  have hlen : (olog.map fun cm => (cm.1, snapshotVersions cm.2)).length = olog.length := by
    simp
  have hi2 : i < (olog.map fun cm => (cm.1, snapshotVersions cm.2)).length := by
    rw [hlen]; exact hi
  have hget : ∀ j (hj : j < olog.length),
      (olog.map fun cm => (cm.1, snapshotVersions cm.2)).get ⟨j, by rw [hlen]; exact hj⟩ =
        ((olog.get ⟨j, hj⟩).1, snapshotVersions (olog.get ⟨j, hj⟩).2) := by
    intro j hj
    simp [List.getElem_map]
  have hdecl2 : ∃ vs,
      ((olog.map fun cm => (cm.1, snapshotVersions cm.2)).get ⟨i, hi2⟩).2 = some vs ∧ v ∈ vs := by
    rw [hget i hi]
    exact (declares_true_iff _ v).1 hdecl
  have hbefore2 : ∀ j (hj : j < (olog.map fun cm => (cm.1, snapshotVersions cm.2)).length),
      j < i → ∀ vs,
        ((olog.map fun cm => (cm.1, snapshotVersions cm.2)).get ⟨j, hj⟩).2 = some vs →
          v ∉ vs := by
    intro j hj hji vs
    have hj2 : j < olog.length := by rw [← hlen]; exact hj
    rw [hget j hj2]
    exact (declares_false_iff _ v).1 (hfirst j hj2 hji) vs
  have hhash : ((olog.map fun cm => (cm.1, snapshotVersions cm.2)).get ⟨i, hi2⟩).1 =
      (olog.get ⟨i, hi⟩).1 := by
    rw [hget i hi]
  constructor
  · intro hvmb
    rw [(runScan_proj olog ⟨mb, mt, [], [], []⟩).2.1]
    rw [← hhash]
    exact scanKind_first_decl _ mb [] v i hi2 hndb hvmb rfl hdecl2 hbefore2
  · intro hvmt
    rw [(runScan_proj olog ⟨mb, mt, [], [], []⟩).2.2.2]
    rw [← hhash]
    exact scanKind_first_decl _ mt [] v i hi2 hndt hvmt rfl hdecl2 hbefore2

theorem C2_backfill_pairs_earliest_commit_witness :
    ((runScan
        [(10, some ['2', '.', '0', '.', '0']),
         (20, some ['2', '.', '1', '.', '0', '\n', '2', '.', '0', '.', '0']),
         (30, some ['2', '.', '2', '.', '0', '\n', '2', '.', '1', '.', '0', '\n',
                    '2', '.', '0', '.', '0'])]
        ⟨[⟨2, 1, 0, []⟩], [⟨2, 1, 0, []⟩], [], [], []⟩).branchesToCreate.filter
      fun q => decide (q.1 = ⟨2, 1, 0, []⟩)) = [(⟨2, 1, 0, []⟩, 20)] :=
  (C2_backfill_pairs_earliest_commit
    [(10, some ['2', '.', '0', '.', '0']),
     (20, some ['2', '.', '1', '.', '0', '\n', '2', '.', '0', '.', '0']),
     (30, some ['2', '.', '2', '.', '0', '\n', '2', '.', '1', '.', '0', '\n',
                '2', '.', '0', '.', '0'])]
    [⟨2, 1, 0, []⟩] [⟨2, 1, 0, []⟩] ⟨2, 1, 0, []⟩ 1 (by decide)
    (by decide) (by decide) (by decide)
    (fun j hj hji => by
      have hj0 : j = 0 := by omega
      subst hj0
      show declares (10, some ['2', '.', '0', '.', '0']) ⟨2, 1, 0, []⟩ = false
      decide)).1 (by decide)

theorem natDigitsAux_irrel : ∀ (n f1 f2 : Nat), n ≤ f1 → n ≤ f2 →
    natDigitsAux f1 n = natDigitsAux f2 n := by
  intro n
  induction n using Nat.strong_induction_on with
  | _ n ih =>
    intro f1 f2 h1 h2
    by_cases h10 : n < 10
    · cases f1 with
      | zero =>
        cases f2 with
        | zero => rfl
        | succ f2 => simp [natDigitsAux, h10]
      | succ f1 =>
        cases f2 with
        | zero => simp [natDigitsAux, h10]
        | succ f2 => simp [natDigitsAux, h10]
    · cases f1 with
      | zero => omega
      | succ f1 =>
        cases f2 with
        | zero => omega
        | succ f2 =>
          simp only [natDigitsAux, if_neg h10]
          have hd : n / 10 < n := Nat.div_lt_self (by omega) (by omega)
          rw [ih (n / 10) hd f1 f2 (by omega) (by omega)]

theorem natDigits_eq (n : Nat) :
    natDigits n = if n < 10 then [digitChar n]
      else natDigits (n / 10) ++ [digitChar (n % 10)] := by
  unfold natDigits
  by_cases h10 : n < 10
  · cases n with
    | zero => simp [natDigitsAux, h10]
    | succ m => simp [natDigitsAux, h10]
  · cases hn : n with
    | zero => omega
    | succ m =>
      simp only [if_neg (hn ▸ h10)]
      show natDigitsAux (m + 1) (m + 1) = _
      simp only [natDigitsAux, if_neg (hn ▸ h10)]
      have hd : (m + 1) / 10 < m + 1 := Nat.div_lt_self (by omega) (by omega)
      rw [natDigitsAux_irrel ((m + 1) / 10) m ((m + 1) / 10) (by omega) (by omega)]

theorem digitChar_isDigit {d : Nat} (h : d < 10) : isDigitC (digitChar d) = true := by
  interval_cases d <;> decide

theorem digitVal_digitChar {d : Nat} (h : d < 10) : digitVal (digitChar d) = d := by
  interval_cases d <;> decide

theorem natDigits_all_digits (n : Nat) : (natDigits n).all isDigitC = true := by
  induction n using Nat.strong_induction_on with
  | _ n ih =>
    rw [natDigits_eq]
    by_cases h10 : n < 10
    · simp [h10, digitChar_isDigit h10]
    · have hd : n / 10 < n := Nat.div_lt_self (by omega) (by omega)
      simp [h10, List.all_append, ih (n / 10) hd,
        digitChar_isDigit (Nat.mod_lt n (by omega))]

theorem natDigits_ne_nil (n : Nat) : natDigits n ≠ [] := by
  rw [natDigits_eq]
  by_cases h10 : n < 10
  · simp [h10]
  · simp [h10]

theorem digitsVal_concat (xs : List Char) (c : Char) :
    digitsVal (xs ++ [c]) = digitsVal xs * 10 + digitVal c := by
  unfold digitsVal
  rw [List.foldl_append]
  show digitsVal xs * 10 + digitVal c = _
  rfl

theorem digitsVal_natDigits (n : Nat) : digitsVal (natDigits n) = n := by
  induction n using Nat.strong_induction_on with
  | _ n ih =>
    rw [natDigits_eq]
    by_cases h10 : n < 10
    · simp only [if_pos h10]
      show digitsVal [digitChar n] = n
      unfold digitsVal
      simp [digitVal_digitChar h10]
    · simp only [if_neg h10]
      have hd : n / 10 < n := Nat.div_lt_self (by omega) (by omega)
      rw [digitsVal_concat, ih (n / 10) hd, digitVal_digitChar (Nat.mod_lt n (by omega))]
      omega

theorem atoiQ_natDigits {n : Nat} (h : n ≤ INT64MAX) : atoiQ (natDigits n) = some n := by
  unfold atoiQ
  rw [digitsVal_natDigits]
  simp [h]

theorem takeWhile_append_stop (p : Char → Bool) :
    ∀ (l r : List Char), l.all p = true → (∀ c, r.head? = some c → p c = false) →
      (l ++ r).takeWhile p = l ∧ (l ++ r).dropWhile p = r := by
  intro l
  induction l with
  | nil =>
    intro r _ hr
    cases r with
    | nil => exact ⟨rfl, rfl⟩
    | cons c rs =>
      have hc : p c = false := hr c rfl
      constructor
      · show (c :: rs).takeWhile p = []
        rw [List.takeWhile_cons]
        simp [hc]
      · show (c :: rs).dropWhile p = c :: rs
        rw [List.dropWhile_cons]
        simp [hc]
  | cons a l ih =>
    intro r hall hr
    have ha : p a = true := by
      have := List.all_eq_true.1 hall a (List.mem_cons_self a l)
      exact this
    have hl : l.all p = true := by
      rw [List.all_eq_true]
      intro x hx
      exact List.all_eq_true.1 hall x (List.mem_cons_of_mem a hx)
    obtain ⟨ht, hd⟩ := ih r hl hr
    constructor
    · show ((a :: l) ++ r).takeWhile p = a :: l
      rw [List.cons_append, List.takeWhile_cons]
      simp [ha, ht]
    · show ((a :: l) ++ r).dropWhile p = r
      rw [List.cons_append, List.dropWhile_cons]
      simp [ha, hd]

theorem head_cons_stop {p : Char → Bool} {r : List Char} {a : Char} (ha : p a = false) :
    ∀ c, ((a :: r).head? = some c) → p c = false := by
  intro c hc
  rw [List.head?_cons] at hc
  cases hc
  exact ha

theorem head_nil_not (p : Char → Bool) : ∀ c, (([] : List Char).head? = some c) → p c = false := by
  intro c hc
  cases hc

theorem matchTail_plain (maj minr : Nat) :
    matchTail (natDigits maj ++ '.' :: natDigits minr) =
      some (natDigits maj, natDigits minr, none, none) := by
  have h1 := takeWhile_append_stop isDigitC (natDigits maj) ('.' :: natDigits minr)
    (natDigits_all_digits maj) (head_cons_stop (by decide))
  have h2 := takeWhile_append_stop isDigitC (natDigits minr) ([] : List Char)
    (natDigits_all_digits minr) (head_nil_not isDigitC)
  rw [List.append_nil] at h2
  unfold matchTail
  simp only [h1.1, h1.2, List.head?_cons, List.tail_cons, h2.1, h2.2]
  simp [natDigits_ne_nil]

theorem matchTail_flavored (maj minr : Nat) (flavor : List Char)
    (hfe : flavor ≠ []) (hfl : flavor.all isWordC = true) :
    matchTail (natDigits maj ++ '.' :: (natDigits minr ++ '-' :: flavor)) =
      some (natDigits maj, natDigits minr, none, some flavor) := by
  have h1 := takeWhile_append_stop isDigitC (natDigits maj)
    ('.' :: (natDigits minr ++ '-' :: flavor))
    (natDigits_all_digits maj) (head_cons_stop (by decide))
  have h2 := takeWhile_append_stop isDigitC (natDigits minr) ('-' :: flavor)
    (natDigits_all_digits minr) (head_cons_stop (by decide))
  unfold matchTail
  simp only [h1.1, h1.2, List.head?_cons, List.tail_cons, h2.1, h2.2]
  simp [natDigits_ne_nil, hfe, hfl]

theorem matchTail_patched (maj minr p : Nat) :
    matchTail (natDigits maj ++ '.' :: (natDigits minr ++ '.' :: natDigits p)) =
      some (natDigits maj, natDigits minr, some (natDigits p), none) := by
  have h1 := takeWhile_append_stop isDigitC (natDigits maj)
    ('.' :: (natDigits minr ++ '.' :: natDigits p))
    (natDigits_all_digits maj) (head_cons_stop (by decide))
  have h2 := takeWhile_append_stop isDigitC (natDigits minr) ('.' :: natDigits p)
    (natDigits_all_digits minr) (head_cons_stop (by decide))
  have h3 := takeWhile_append_stop isDigitC (natDigits p) ([] : List Char)
    (natDigits_all_digits p) (head_nil_not isDigitC)
  rw [List.append_nil] at h3
  unfold matchTail
  simp only [h1.1, h1.2, List.head?_cons, List.tail_cons, h2.1, h2.2, h3.1, h3.2]
  simp [natDigits_ne_nil]

theorem matchTail_patched_flavored (maj minr p : Nat) (flavor : List Char)
    (hfe : flavor ≠ []) (hfl : flavor.all isWordC = true) :
    matchTail (natDigits maj ++ '.' :: (natDigits minr ++
      '.' :: (natDigits p ++ '-' :: flavor))) =
      some (natDigits maj, natDigits minr, some (natDigits p), some flavor) := by
  have h1 := takeWhile_append_stop isDigitC (natDigits maj)
    ('.' :: (natDigits minr ++ '.' :: (natDigits p ++ '-' :: flavor)))
    (natDigits_all_digits maj) (head_cons_stop (by decide))
  have h2 := takeWhile_append_stop isDigitC (natDigits minr)
    ('.' :: (natDigits p ++ '-' :: flavor))
    (natDigits_all_digits minr) (head_cons_stop (by decide))
  have h3 := takeWhile_append_stop isDigitC (natDigits p) ('-' :: flavor)
    (natDigits_all_digits p) (head_cons_stop (by decide))
  unfold matchTail
  simp only [h1.1, h1.2, List.head?_cons, List.tail_cons, h2.1, h2.2, h3.1, h3.2]
  simp [natDigits_ne_nil, hfe, hfl]

theorem isWordC_of_digit {c : Char} (h : isDigitC c = true) : isWordC c = true := by
  unfold isDigitC at h
  unfold isWordC
  rw [h]
  rfl

theorem all_word_of_all_digit {l : List Char} (h : l.all isDigitC = true) :
    l.all isWordC = true := by
  rw [List.all_eq_true] at h ⊢
  exact fun c hc => isWordC_of_digit (h c hc)

theorem validPfxB_cases {p : List Char} (h : validPfxB p = true) :
    p = [] ∨ p = ['v'] ∨ ∃ w, p = w ++ ['-'] ∧ w.all isWordC = true := by
  by_cases h0 : p = []
  · exact Or.inl h0
  by_cases h1 : p = ['v']
  · exact Or.inr (Or.inl h1)
  unfold validPfxB at h
  rw [decide_eq_false h0, Bool.false_or, decide_eq_false h1, Bool.false_or,
    Bool.and_eq_true] at h
  have hg : p.getLast? = some '-' := of_decide_eq_true h.1
  exact Or.inr (Or.inr ⟨p.dropLast,
    (List.dropLast_append_getLast? '-' (Option.mem_def.2 hg)).symm, h.2⟩)

theorem natDigits_head_not_v (maj : Nat) :
    ∀ c, ((natDigits maj).head? = some c) → c ≠ 'v' := by
  intro c hc heq
  subst heq
  cases hnd : natDigits maj with
  | nil => rw [hnd] at hc; cases hc
  | cons a rest =>
    rw [hnd] at hc
    rw [List.head?_cons] at hc
    have ha : isDigitC a = true := by
      have := natDigits_all_digits maj
      rw [hnd, List.all_cons, Bool.and_eq_true] at this
      exact this.1
    cases hc
    rw [show isDigitC 'v' = false from by decide] at ha
    cases ha

theorem matchVersionRE_built (p : List Char) (hp : validPfxB p = true)
    (maj : Nat) (R ma mi : List Char) (pa fl : Option (List Char))
    (hmt : matchTail (natDigits maj ++ '.' :: R) = some (ma, mi, pa, fl)) :
    matchVersionRE (p ++ (natDigits maj ++ '.' :: R)) = some ⟨p, ma, mi, pa, fl⟩ := by
  have hTword := takeWhile_append_stop isWordC (natDigits maj) ('.' :: R)
    (all_word_of_all_digit (natDigits_all_digits maj))
    (head_cons_stop (by decide))
  rcases validPfxB_cases hp with rfl | rfl | ⟨w, rfl, hw⟩
  · rw [List.nil_append]
    unfold matchVersionRE
    rw [hTword.2]
    simp only [List.head?_cons]
    have hne1 : (('.' : Char) = '-') = False := by simp
    obtain ⟨a, rest, hnd⟩ : ∃ a rest, natDigits maj = a :: rest := by
      cases hnd : natDigits maj with
      | nil => exact absurd hnd (natDigits_ne_nil maj)
      | cons a rest => exact ⟨a, rest, rfl⟩
    have hheadv : ((natDigits maj ++ '.' :: R).head? = some 'v') = False := by
      rw [hnd, List.cons_append, List.head?_cons]
      simp only [Option.some.injEq, eq_iff_iff, iff_false]
      intro ha
      exact natDigits_head_not_v maj a (by rw [hnd]; rfl) ha
    simp only [hne1, Option.some.injEq, if_false, hheadv, hmt]
    rfl
  · rw [List.singleton_append]
    unfold matchVersionRE
    have hdw : ('v' :: (natDigits maj ++ '.' :: R)).dropWhile isWordC = '.' :: R := by
      rw [List.dropWhile_cons]
      simp only [show isWordC 'v' = true from by decide, if_true]
      exact hTword.2
    rw [hdw]
    simp only [List.head?_cons, List.tail_cons]
    have hne1 : (('.' : Char) = '-') = False := by simp
    simp only [hne1, Option.some.injEq, if_false, hmt]
    rfl
  · have hassoc : (w ++ ['-']) ++ (natDigits maj ++ '.' :: R) =
        w ++ ('-' :: (natDigits maj ++ '.' :: R)) := by
      rw [List.append_assoc]
      rfl
    rw [hassoc]
    have hWword := takeWhile_append_stop isWordC w ('-' :: (natDigits maj ++ '.' :: R))
      hw (head_cons_stop (by decide))
    unfold matchVersionRE
    rw [hWword.2, hWword.1]
    simp only [List.head?_cons, List.tail_cons, if_true, hmt]
    rfl

/-- C5 (amended): for every well-formed version string whose numeric
components are canonical decimal numerals (no leading zeros) within the
64-bit signed range — here assembled from its grammar components: a valid
prefix, major, minor, optional patch, optional word-character flavor —
parsing recovers exactly those components and formatting the parsed version
under the style inferred from the string reproduces the string exactly. -/
theorem C5_round_trip_canonical (pfx : List Char) (maj minr : Nat) (patch : Option Nat)
    (flavor : List Char) (hp : validPfxB pfx = true) (hf : flavor.all isWordC = true)
    (hmaj : maj ≤ INT64MAX) (hmin : minr ≤ INT64MAX) (hpat : patch.getD 0 ≤ INT64MAX) :
    Parse (buildVersionString pfx maj minr patch flavor) =
      some ⟨maj, minr, patch.getD 0, flavor⟩ ∧
    ParseStyle (buildVersionString pfx maj minr patch flavor) = some ⟨pfx, patch.isNone⟩ ∧
    Style.Format ⟨pfx, patch.isNone⟩ ⟨maj, minr, patch.getD 0, flavor⟩ =
      buildVersionString pfx maj minr patch flavor := by
  cases patch with
  | none =>
    by_cases hfe : flavor = []
    · subst hfe
      have hb : buildVersionString pfx maj minr none [] =
          pfx ++ (natDigits maj ++ '.' :: natDigits minr) := by
        unfold buildVersionString
        simp
      have hm := matchVersionRE_built pfx hp maj (natDigits minr)
        (natDigits maj) (natDigits minr) none none (matchTail_plain maj minr)
      rw [hb]
      refine ⟨?_, ?_, ?_⟩
      · unfold Parse
        rw [hm]
        simp [atoiQ_natDigits hmaj, atoiQ_natDigits hmin]
      · unfold ParseStyle
        rw [hm]
        rfl
      · unfold Style.Format
        simp
    · have hb : buildVersionString pfx maj minr none flavor =
          pfx ++ (natDigits maj ++ '.' :: (natDigits minr ++ '-' :: flavor)) := by
        unfold buildVersionString
        simp [hfe]
      have hm := matchVersionRE_built pfx hp maj (natDigits minr ++ '-' :: flavor)
        (natDigits maj) (natDigits minr) none (some flavor)
        (matchTail_flavored maj minr flavor hfe hf)
      rw [hb]
      refine ⟨?_, ?_, ?_⟩
      · unfold Parse
        rw [hm]
        simp [atoiQ_natDigits hmaj, atoiQ_natDigits hmin]
      · unfold ParseStyle
        rw [hm]
        rfl
      · unfold Style.Format
        simp [hfe]
  | some p =>
    have hpat2 : p ≤ INT64MAX := hpat
    by_cases hfe : flavor = []
    · subst hfe
      have hb : buildVersionString pfx maj minr (some p) [] =
          pfx ++ (natDigits maj ++ '.' :: (natDigits minr ++ '.' :: natDigits p)) := by
        unfold buildVersionString
        simp
      have hm := matchVersionRE_built pfx hp maj (natDigits minr ++ '.' :: natDigits p)
        (natDigits maj) (natDigits minr) (some (natDigits p)) none
        (matchTail_patched maj minr p)
      rw [hb]
      refine ⟨?_, ?_, ?_⟩
      · unfold Parse
        rw [hm]
        simp [atoiQ_natDigits hmaj, atoiQ_natDigits hmin, atoiQ_natDigits hpat2]
      · unfold ParseStyle
        rw [hm]
        rfl
      · unfold Style.Format
        simp
    · have hb : buildVersionString pfx maj minr (some p) flavor =
          pfx ++ (natDigits maj ++ '.' :: (natDigits minr ++
            '.' :: (natDigits p ++ '-' :: flavor))) := by
        unfold buildVersionString
        simp [hfe]
      have hm := matchVersionRE_built pfx hp maj
        (natDigits minr ++ '.' :: (natDigits p ++ '-' :: flavor))
        (natDigits maj) (natDigits minr) (some (natDigits p)) (some flavor)
        (matchTail_patched_flavored maj minr p flavor hfe hf)
      rw [hb]
      refine ⟨?_, ?_, ?_⟩
      · unfold Parse
        rw [hm]
        simp [atoiQ_natDigits hmaj, atoiQ_natDigits hmin, atoiQ_natDigits hpat2]
      · unfold ParseStyle
        rw [hm]
        rfl
      · unfold Style.Format
        simp [hfe]

theorem C5_round_trip_canonical_witness :
    Parse ['v', '2', '.', '3', '-', 'd', 'e', 'v'] =
      some ⟨2, 3, 0, ['d', 'e', 'v']⟩ ∧
    ParseStyle ['v', '2', '.', '3', '-', 'd', 'e', 'v'] = some ⟨['v'], true⟩ ∧
    Style.Format ⟨['v'], true⟩ ⟨2, 3, 0, ['d', 'e', 'v']⟩ =
      ['v', '2', '.', '3', '-', 'd', 'e', 'v'] :=
  C5_round_trip_canonical ['v'] 2 3 none ['d', 'e', 'v']
    (by decide) (by decide) (by decide) (by decide) (by decide)

theorem takeWhile_append_headstop {α : Type} (p : α → Bool) :
    ∀ (A B : List α), (∀ c, B.head? = some c → p c = false) →
      (A ++ B).takeWhile p = A.takeWhile p := by
  intro A
  induction A with
  | nil =>
    intro B hB
    cases B with
    | nil => rfl
    | cons b bs =>
      show (b :: bs).takeWhile p = []
      rw [List.takeWhile_cons, hB b rfl]
      rfl
  | cons a A ih =>
    intro B hB
    rw [List.cons_append, List.takeWhile_cons, List.takeWhile_cons]
    cases hpa : p a
    · rfl
    · rw [ih B hB]

theorem dropWhile_eq_drop_len {α : Type} (p : α → Bool) :
    ∀ (l : List α), l.dropWhile p = l.drop (l.takeWhile p).length := by
  intro l
  induction l with
  | nil => rfl
  | cons a l ih =>
    rw [List.dropWhile_cons, List.takeWhile_cons]
    cases hpa : p a
    · rfl
    · simp only [if_true, List.length_cons, List.drop_succ_cons]
      exact ih

theorem dropBlanksEnd_append_blank (xs : List (List Char)) (b : List Char)
    (hb : isBlankLine b = true) : dropBlanksEnd (xs ++ [b]) = dropBlanksEnd xs := by
  unfold dropBlanksEnd
  rw [List.reverse_append]
  show ((b :: xs.reverse).dropWhile isBlankLine).reverse = _
  rw [List.dropWhile_cons, hb]
  simp

theorem dropBlanksEnd_append_nonblank (xs : List (List Char)) (b : List Char)
    (hb : isBlankLine b = false) : dropBlanksEnd (xs ++ [b]) = xs ++ [b] := by
  unfold dropBlanksEnd
  rw [List.reverse_append]
  show ((b :: xs.reverse).dropWhile isBlankLine).reverse = _
  rw [List.dropWhile_cons, hb]
  simp

theorem dropBlanksEnd_decomp (X : List (List Char)) :
    dropBlanksEnd X ++ (X.reverse.takeWhile isBlankLine).reverse = X := by
  unfold dropBlanksEnd
  rw [← List.reverse_append, List.takeWhile_append_dropWhile, List.reverse_reverse]

theorem dropBlanksEnd_is_prefix (X : List (List Char)) :
    X.take (dropBlanksEnd X).length = dropBlanksEnd X := by
  have h2 : (dropBlanksEnd X ++ (X.reverse.takeWhile isBlankLine).reverse).take
      (dropBlanksEnd X).length = dropBlanksEnd X :=
    List.take_left (dropBlanksEnd X) ((X.reverse.takeWhile isBlankLine).reverse)
  rw [dropBlanksEnd_decomp X] at h2
  exact h2

theorem skipGo_spec : ∀ (suffix : List (List Char)) (i : Nat),
    skipGo suffix i = i + (suffix.takeWhile isBlankLine).length := by
  intro suffix
  induction suffix with
  | nil => intro i; rfl
  | cons l rest ih =>
    intro i
    unfold skipGo
    rw [List.takeWhile_cons]
    cases hb : isBlankLine l
    · simp
    · simp only [if_true, List.length_cons]
      rw [ih (i + 1)]
      omega

theorem shrinkGo_spec : ∀ (k : Nat) (lines : List (List Char)) (e : Nat),
    k ≤ e → e ≤ lines.length →
    shrinkGo k lines e = (e - k) + (dropBlanksEnd ((lines.drop (e - k)).take k)).length := by
  intro k
  induction k with
  | zero =>
    intro lines e _ _
    simp [shrinkGo, dropBlanksEnd]
  | succ k ih =>
    intro lines e hke hlen
    have he1 : e - 1 < lines.length := by omega
    have hgetd : lines.getD (e - 1) [] = lines[e - 1] := by
      rw [List.getD_eq_getElem lines [] he1]
    have hs : e - (k + 1) + k = e - 1 := by omega
    have hlen2 : k < (lines.drop (e - (k + 1))).length := by
      rw [List.length_drop]
      omega
    have h2 : (lines.drop (e - (k + 1)))[k] = lines[e - 1] := by
      rw [List.getElem_drop]
      simp only [hs]
    have hsplit : (lines.drop (e - (k + 1))).take (k + 1) =
        (lines.drop (e - (k + 1))).take k ++ [lines[e - 1]] := by
      have h1 := List.take_concat_get (lines.drop (e - (k + 1))) k hlen2
      rw [List.concat_eq_append] at h1
      rw [← h1, h2]
    unfold shrinkGo
    rw [hgetd]
    cases hb : isBlankLine lines[e - 1]
    · simp only [Bool.false_eq_true, if_false]
      rw [hsplit, dropBlanksEnd_append_nonblank _ _ hb]
      rw [List.length_append, List.length_take, List.length_drop]
      simp only [List.length_singleton]
      omega
    · simp only [if_true]
      rw [ih lines (e - 1) (by omega) (by omega)]
      rw [hsplit, dropBlanksEnd_append_blank _ _ hb]
      have : e - 1 - k = e - (k + 1) := by omega
      rw [this]

theorem digit_not_space {c : Char} (hd : isDigitC c = true) : isSpaceC c = false := by
  cases hs : isSpaceC c
  · rfl
  · exfalso
    unfold isSpaceC at hs
    simp only [Bool.or_eq_true, decide_eq_true_eq] at hs
    rcases hs with ((((((h | h) | h) | h) | h) | h) | h) | h <;>
      (subst h; exact absurd hd (by decide))

theorem prefixOptions_sublist (x : List Char) :
    ∀ pr ∈ prefixOptions x, pr.2.Sublist x := by
  intro pr hpr
  unfold prefixOptions at hpr
  rcases List.mem_append.1 hpr with h1 | h2
  · rcases List.mem_append.1 h1 with ha | hb
    · by_cases hc : (x.dropWhile isWordC).head? = some '-'
      · rw [if_pos hc] at ha
        rcases List.mem_singleton.1 ha with rfl
        exact ((x.dropWhile isWordC).tail_sublist).trans (List.dropWhile_sublist isWordC)
      · rw [if_neg hc] at ha
        cases ha
    · by_cases hc : x.head? = some 'v'
      · rw [if_pos hc] at hb
        rcases List.mem_singleton.1 hb with rfl
        exact x.tail_sublist
      · rw [if_neg hc] at hb
        cases hb
  · rcases List.mem_singleton.1 h2 with rfl
    exact List.Sublist.refl x

theorem tokenTailCandidates_digit (y : List Char) :
    ∀ t ∈ tokenTailCandidates y, ∃ d, isDigitC d = true ∧ d ∈ y := by
  intro t ht
  by_cases hmaj : y.takeWhile isDigitC = []
  · unfold tokenTailCandidates at ht
    rw [if_pos hmaj] at ht
    cases ht
  · cases hl : y.takeWhile isDigitC with
    | nil => exact absurd hl hmaj
    | cons c cs =>
      refine ⟨c, ?_, ?_⟩
      · exact List.mem_takeWhile_imp (hl ▸ List.mem_cons_self c cs)
      · exact (List.takeWhile_sublist isDigitC).subset (hl ▸ List.mem_cons_self c cs)

theorem matchHeading_digit {l : List Char}
    {r : List Char × List Char × List Char × List Char}
    (h : matchHeading l = some r) : ∃ d, isDigitC d = true ∧ d ∈ l := by
  unfold matchHeading at h
  obtain ⟨tc, htc, -⟩ := List.exists_of_findSome?_eq_some h
  unfold tokenCandidates at htc
  obtain ⟨pr, hpr, htc2⟩ := List.mem_flatMap.1 htc
  obtain ⟨t, ht, -⟩ := List.mem_map.1 htc2
  obtain ⟨d, hd, hdm⟩ := tokenTailCandidates_digit pr.2 t ht
  refine ⟨d, hd, ?_⟩
  have h1 : d ∈ (l.dropWhile fun c => c = '#').dropWhile fun c => c = ' ' :=
    (prefixOptions_sublist _ pr hpr).subset hdm
  exact (List.dropWhile_sublist _).subset
    ((List.dropWhile_sublist (fun c => c = ' ')).subset h1)

theorem matchHeading_not_blank {l : List Char}
    (h : (matchHeading l).isSome = true) : isBlankLine l = false := by
  obtain ⟨r, hr⟩ := Option.isSome_iff_exists.1 h
  obtain ⟨d, hd, hdm⟩ := matchHeading_digit hr
  cases hb : isBlankLine l
  · rfl
  · exfalso
    unfold isBlankLine at hb
    have := List.all_eq_true.1 hb d hdm
    rw [digit_not_space hd] at this
    cases this

theorem parseFrom_inv : ∀ (ls : List (List Char)) (i : Nat) (es : List VersionEntry),
    parseFrom i ls = some es →
    List.Chain' (fun a b => a.line < b.line) es ∧
    ∀ e ∈ es, i < e.line ∧ e.line ≤ i + ls.length ∧
      (matchHeading (ls.getD (e.line - 1 - i) [])).isSome = true := by
  intro ls
  induction ls with
  | nil =>
    intro i es h
    unfold parseFrom at h
    cases h
    exact ⟨List.chain'_nil, fun e he => absurd he (List.not_mem_nil e)⟩
  | cons ln rest ih =>
    intro i es h
    unfold parseFrom at h
    cases hm : matchHeading ln with
    | none =>
      simp only [hm] at h
      obtain ⟨hch, hmem⟩ := ih (i + 1) es h
      refine ⟨hch, fun e he => ?_⟩
      obtain ⟨h1, h2, h3⟩ := hmem e he
      refine ⟨by omega, ?_, ?_⟩
      · simp only [List.length_cons]
        omega
      · have hidx : e.line - 1 - i = (e.line - 1 - (i + 1)) + 1 := by omega
        rw [hidx, List.getD_cons_succ]
        exact h3
    | some quad =>
      obtain ⟨m1, m2, m3, m4⟩ := quad
      simp only [hm] at h
      cases hp : Parse m2 with
      | none => rw [hp] at h; cases h
      | some v =>
        rw [hp] at h
        cases hrec : parseFrom (i + 1) rest with
        | none => rw [hrec] at h; cases h
        | some es2 =>
          rw [hrec] at h
          simp only [Option.map_some'] at h
          cases h
          obtain ⟨hch, hmem⟩ := ih (i + 1) es2 hrec
          constructor
          · rw [List.chain'_cons']
            refine ⟨fun y hy => ?_, hch⟩
            have hy2 : y ∈ es2 := List.mem_of_mem_head? hy
            exact (hmem y hy2).1
          · intro e he
            rcases List.mem_cons.1 he with rfl | he2
            · refine ⟨Nat.lt_succ_self i, ?_, ?_⟩
              · show i + 1 ≤ i + (rest.length + 1)
                omega
              · have hidx : i + 1 - 1 - i = 0 := by omega
                show (matchHeading ((ln :: rest).getD (i + 1 - 1 - i) [])).isSome = true
                rw [hidx, List.getD_cons_zero, hm]
                rfl
            · obtain ⟨h1, h2, h3⟩ := hmem e he2
              refine ⟨by omega, ?_, ?_⟩
              · simp only [List.length_cons]
                omega
              · have hidx : e.line - 1 - i = (e.line - 1 - (i + 1)) + 1 := by omega
                rw [hidx, List.getD_cons_succ]
                exact h3

theorem take_dropBlanksEnd_of_take (L : List (List Char)) (S J : Nat)
    (X : List (List Char)) (hX : (L.drop S).take J = X)
    (hj : (dropBlanksEnd X).length ≤ J) :
    (L.drop S).take (dropBlanksEnd X).length = dropBlanksEnd X := by
  have h7 : ((L.drop S).take J).take (dropBlanksEnd X).length =
      (L.drop S).take (dropBlanksEnd X).length := by
    rw [List.take_take, Nat.min_eq_left hj]
  rw [← h7, hX]
  exact dropBlanksEnd_is_prefix X

/-- C7 (amended): for every parsed document with at least two version
entries, `CurrentVersionNotes` returns the text strictly between the topmost
heading and the next heading WITHOUT trimming blank lines, while
`ReleaseNotes` of the topmost entry's version returns that same text with
leading and trailing blank lines trimmed — so the two agree exactly when the
in-between text has no leading or trailing blank lines. -/
theorem C7_notes_trimming_difference (text : List Char) (c : Content)
    (e0 e1 : VersionEntry) (rest : List VersionEntry)
    (hread : Read text = some c) (hv : c.versions = e0 :: e1 :: rest) :
    Content.CurrentVersionNotes c =
      joinLines ((c.lines.drop e0.line).take (e1.line - 1 - e0.line)) ∧
    Content.ReleaseNotes c e0.version =
      some (joinLines (dropBlanksEnd
        (((c.lines.drop e0.line).take (e1.line - 1 - e0.line)).dropWhile isBlankLine))) := by
  have hpf : parseFrom 0 c.lines = some c.versions := by
    unfold Read at hread
    cases hp : parseFrom 0 (splitLines text) with
    | none => rw [hp] at hread; cases hread
    | some es =>
      rw [hp] at hread
      simp only [Option.map_some'] at hread
      cases hread
      exact hp
  obtain ⟨hch, hmem⟩ := parseFrom_inv c.lines 0 c.versions hpf
  rw [hv] at hch hmem
  have h01 : e0.line < e1.line := (List.chain'_cons.1 hch).1
  obtain ⟨hpos1, hle1, hhead1⟩ := hmem e1 (List.mem_cons_of_mem e0 (List.mem_cons_self e1 rest))
  rw [Nat.zero_add] at hle1
  have hlt1 : e1.line - 1 < c.lines.length := by omega
  have hnb : isBlankLine (c.lines[e1.line - 1]) = false := by
    have h2 : (matchHeading (c.lines.getD (e1.line - 1) [])).isSome = true := hhead1
    rw [List.getD_eq_getElem c.lines [] hlt1] at h2
    exact matchHeading_not_blank h2
  have hBlen : ((c.lines.drop e0.line).take (e1.line - 1 - e0.line)).length =
      e1.line - 1 - e0.line := by
    rw [List.length_take, List.length_drop]
    omega
  have hdropsplit : c.lines.drop e0.line =
      ((c.lines.drop e0.line).take (e1.line - 1 - e0.line)) ++ c.lines.drop (e1.line - 1) := by
    have h1 := List.take_append_drop (e1.line - 1 - e0.line) (c.lines.drop e0.line)
    have h2 : (c.lines.drop e0.line).drop (e1.line - 1 - e0.line) =
        c.lines.drop (e1.line - 1) := by
      rw [List.drop_drop]
      congr 1
      omega
    rw [h2] at h1
    exact h1.symm
  have hconsnb : c.lines.drop (e1.line - 1) =
      c.lines[e1.line - 1] :: c.lines.drop (e1.line - 1 + 1) :=
    List.drop_eq_getElem_cons hlt1
  have htwB : (c.lines.drop e0.line).takeWhile isBlankLine =
      ((c.lines.drop e0.line).take (e1.line - 1 - e0.line)).takeWhile isBlankLine := by
    conv_lhs => rw [hdropsplit]
    refine takeWhile_append_headstop isBlankLine _ _ ?_
    intro x hx
    rw [hconsnb, List.head?_cons] at hx
    cases hx
    exact hnb
  have hk_le : (((c.lines.drop e0.line).take (e1.line - 1 - e0.line)).takeWhile
      isBlankLine).length ≤ e1.line - 1 - e0.line := by
    have h3 := (List.takeWhile_sublist
      (l := (c.lines.drop e0.line).take (e1.line - 1 - e0.line)) isBlankLine).length_le
    omega
  have hskip : skipBlanksFrom c.lines e0.line =
      e0.line + (((c.lines.drop e0.line).take (e1.line - 1 - e0.line)).takeWhile
        isBlankLine).length := by
    unfold skipBlanksFrom
    rw [skipGo_spec, htwB]
  have hXdrop : ((c.lines.drop e0.line).take (e1.line - 1 - e0.line)).dropWhile isBlankLine =
      ((c.lines.drop e0.line).take (e1.line - 1 - e0.line)).drop
        ((((c.lines.drop e0.line).take (e1.line - 1 - e0.line)).takeWhile
          isBlankLine).length) :=
    dropWhile_eq_drop_len isBlankLine _
  have hXeq : (c.lines.drop (e0.line + (((c.lines.drop e0.line).take
        (e1.line - 1 - e0.line)).takeWhile isBlankLine).length)).take
      ((e1.line - 1) - (e0.line + (((c.lines.drop e0.line).take
        (e1.line - 1 - e0.line)).takeWhile isBlankLine).length)) =
      ((c.lines.drop e0.line).take (e1.line - 1 - e0.line)).dropWhile isBlankLine := by
    rw [hXdrop, List.drop_take, List.drop_drop]
    congr 1
    omega
  have hXlen : (((c.lines.drop e0.line).take (e1.line - 1 - e0.line)).dropWhile
      isBlankLine).length = (e1.line - 1 - e0.line) -
        ((((c.lines.drop e0.line).take (e1.line - 1 - e0.line)).takeWhile
          isBlankLine).length) := by
    rw [hXdrop, List.length_drop, hBlen]
  have hdbe_le : (dropBlanksEnd (((c.lines.drop e0.line).take
      (e1.line - 1 - e0.line)).dropWhile isBlankLine)).length ≤
      (((c.lines.drop e0.line).take (e1.line - 1 - e0.line)).dropWhile
        isBlankLine).length := by
    conv_rhs => rw [← dropBlanksEnd_decomp (((c.lines.drop e0.line).take
      (e1.line - 1 - e0.line)).dropWhile isBlankLine)]
    rw [List.length_append]
    omega
  constructor
  · simp only [Content.CurrentVersionNotes, hv]
    by_cases hlt : e0.line + 1 < e1.line
    · rw [if_pos hlt]
      have hi1 : e0.line + 1 - 1 = e0.line := by omega
      rw [hi1]
    · rw [if_neg hlt]
      have hm0 : e1.line - 1 - e0.line = 0 := by omega
      rw [hm0, List.take_zero]
      rfl
  · simp only [Content.ReleaseNotes, hv, rnRange, eq_self_iff_true, if_true,
      List.head?_cons, Option.map_some']
    rw [hskip]
    have hshrinkval : shrinkEnd c.lines
        (e0.line + (((c.lines.drop e0.line).take (e1.line - 1 - e0.line)).takeWhile
          isBlankLine).length) (e1.line - 1) =
        (e0.line + (((c.lines.drop e0.line).take (e1.line - 1 - e0.line)).takeWhile
          isBlankLine).length) +
        (dropBlanksEnd (((c.lines.drop e0.line).take
          (e1.line - 1 - e0.line)).dropWhile isBlankLine)).length := by
      unfold shrinkEnd
      rw [shrinkGo_spec _ c.lines (e1.line - 1) (by omega) (by omega)]
      have hsub : (e1.line - 1) - ((e1.line - 1) - (e0.line +
          (((c.lines.drop e0.line).take (e1.line - 1 - e0.line)).takeWhile
            isBlankLine).length)) = e0.line +
          (((c.lines.drop e0.line).take (e1.line - 1 - e0.line)).takeWhile
            isBlankLine).length := by omega
      rw [hsub, hXeq]
    rw [hshrinkval, Nat.add_sub_cancel_left]
    have h6 : (dropBlanksEnd (((c.lines.drop e0.line).take
        (e1.line - 1 - e0.line)).dropWhile isBlankLine)).length ≤
        (e1.line - 1) - (e0.line + (((c.lines.drop e0.line).take
          (e1.line - 1 - e0.line)).takeWhile isBlankLine).length) := by omega
    rw [take_dropBlanksEnd_of_take c.lines
      (e0.line + (((c.lines.drop e0.line).take (e1.line - 1 - e0.line)).takeWhile
        isBlankLine).length)
      ((e1.line - 1) - (e0.line + (((c.lines.drop e0.line).take
        (e1.line - 1 - e0.line)).takeWhile isBlankLine).length))
      (((c.lines.drop e0.line).take (e1.line - 1 - e0.line)).dropWhile isBlankLine)
      hXeq h6]

/-- C7 (counterexample): in the document "1.0.0\n\nxxx\n\n0.9.0",
`releaseNotes` of the topmost version returns "xxx" (blank lines trimmed) but
`currentVersionNotes` returns "\nxxx\n" — not the same text, so
`currentVersionNotes` does not trim. -/
theorem C7_counterexample :
    Content.CurrentVersionNotes
      ((Read ['1', '.', '0', '.', '0', '\n', '\n', 'x', 'x', 'x', '\n', '\n',
              '0', '.', '9', '.', '0']).getD ⟨[], []⟩) =
      ['\n', 'x', 'x', 'x', '\n'] ∧
    Content.ReleaseNotes
      ((Read ['1', '.', '0', '.', '0', '\n', '\n', 'x', 'x', 'x', '\n', '\n',
              '0', '.', '9', '.', '0']).getD ⟨[], []⟩) ⟨1, 0, 0, []⟩ =
      some ['x', 'x', 'x'] := by
  decide

theorem C7_notes_trimming_difference_witness :
    Content.CurrentVersionNotes
      ((Read ['1', '.', '0', '.', '0', '\n', 'a', 'b', 'c', '\n',
              '0', '.', '9', '.', '0']).getD ⟨[], []⟩) =
      joinLines (((((Read ['1', '.', '0', '.', '0', '\n', 'a', 'b', 'c', '\n',
              '0', '.', '9', '.', '0']).getD ⟨[], []⟩).lines.drop 1).take 1)) ∧
    Content.ReleaseNotes
      ((Read ['1', '.', '0', '.', '0', '\n', 'a', 'b', 'c', '\n',
              '0', '.', '9', '.', '0']).getD ⟨[], []⟩) ⟨1, 0, 0, []⟩ =
      some (joinLines (dropBlanksEnd
        ((((((Read ['1', '.', '0', '.', '0', '\n', 'a', 'b', 'c', '\n',
              '0', '.', '9', '.', '0']).getD ⟨[], []⟩).lines.drop 1).take 1)).dropWhile
          isBlankLine))) :=
  C7_notes_trimming_difference
    ['1', '.', '0', '.', '0', '\n', 'a', 'b', 'c', '\n', '0', '.', '9', '.', '0']
    ((Read ['1', '.', '0', '.', '0', '\n', 'a', 'b', 'c', '\n',
            '0', '.', '9', '.', '0']).getD ⟨[], []⟩)
    ⟨⟨1, 0, 0, []⟩, 1, [], ⟨[], false⟩, [], []⟩
    ⟨⟨0, 9, 0, []⟩, 3, [], ⟨[], false⟩, [], []⟩
    [] (by decide) (by decide)
